import Mathlib

/-!
Verification development for a two-level set-associative cache simulator.

The Rust sources (`src/cache/block.rs`, `src/cache/cache.rs`,
`src/statistics.rs`, `src/main.rs`) are shallowly embedded below:

* `Block`, `Cache`, `HitOrMiss`, `EvictionResult`, `Statistics` mirror the
  Rust structs field by field (machine `usize` values become `Nat`).
* The set-scanning loops of `Cache::read`, `Cache::write`,
  `Cache::install`, `Cache::update_lru`, `Cache::set_is_full` and
  `Cache::evict_lru_block` become structural recursions over the per-set
  block list (each set holds exactly `assoc` blocks, so iterating the list
  is the same as the Rust loop `for i in 0..assoc`).
* `Cache::install`'s panic branch ("Tried to install where there was no
  free space.") is modelled by returning `none`.
* The per-access hierarchy-controller logic of `main` (lines 96-243 of
  `main.rs`) becomes `processAccess`; the dirty-victim write-back block
  (lines 122-184) is factored into `handleL1WriteBack` exactly as the
  source nests it.
* Address decoding in `main.rs` formats the address as a 32-character
  binary string and slices it; for addresses below `2^32` this is the
  shift/mask arithmetic used in `Cache.indexOf` / `Cache.tagOf`.  An empty
  slice fails to parse and is turned into `0` by `unwrap_or(0)`, which is
  the `tag_bits = 0` special case.
* `fast_math::log2` on an `f32` is exact at powers of two and truncation
  to `usize` is floor; `log2N` is the floor base-2 logarithm used by
  `Cache.new` (all configurations considered here are powers of two).
-/

/-- Mirror of `Block` (`block.rs`): full address of the resident line,
tag, LRU recency rank, valid and dirty bits. -/
structure Block where
  address : Nat
  tag : Nat
  lru : Nat
  valid : Bool
  dirty : Bool
deriving DecidableEq

/-- Mirror of `Block::new()`. -/
def Block.new : Block :=
  { address := 0, tag := 0, lru := 0, valid := false, dirty := false }

/-- Mirror of `enum HitOrMiss`. -/
inductive HitOrMiss where
  | HIT
  | MISS
deriving DecidableEq

/-- Mirror of `struct EvictionResult`. -/
structure EvictionResult where
  evicted_block_address : Nat
  evicted_block_was_dirty : Bool
deriving DecidableEq

/-- The block stored at position `i` of a set (out of range is never used
by in-range theorems; it defaults to `Block.new`). -/
def blkAt (s : List Block) (i : Nat) : Block :=
  s.getD i Block.new

/-- In-place update of the block at position `i`, as the Rust code's
`self.cache[index][i] = ...` assignments. -/
def modifyAt (s : List Block) (i : Nat) (f : Block → Block) : List Block :=
  match s, i with
  | [], _ => []
  | b :: rest, 0 => f b :: rest
  | b :: rest, n + 1 => b :: modifyAt rest n f

/-- Map over a set together with the slot position, starting at `base`. -/
def mapIdxB (f : Nat → Block → Block) : List Block → Nat → List Block
  | [], _ => []
  | b :: rest, base => f base b :: mapIdxB f rest (base + 1)

/-- Position of the first block satisfying `p` (the Rust
`for i in 0..assoc { if p { ...; break } }` scan). -/
def firstIdxWhere (p : Block → Bool) : List Block → Option Nat
  | [] => none
  | b :: rest => if p b then some 0 else (firstIdxWhere p rest).map (· + 1)

/-- Helper for `lastTagIdx`: fold of `if tag matches at position then keep
that position` over the set, as the first loop of `Cache::update_lru`. -/
def lastTagIdxAux (t : Nat) : List Block → Nat → Nat → Nat
  | [], _, acc => acc
  | b :: rest, base, acc =>
      lastTagIdxAux t rest (base + 1) (if b.tag = t then base else acc)

/-- `new_mru_way` of `Cache::update_lru`: the last position whose tag
equals `t`, or `0` when no tag matches. -/
def lastTagIdx (s : List Block) (t : Nat) : Nat :=
  lastTagIdxAux t s 0 0

/-- Mirror of `Cache::update_lru` on one set: promote the (last) slot
holding `t` to rank 0 and increment every other slot whose rank was
strictly below that slot's previous rank. -/
def updateLru (s : List Block) (t : Nat) : List Block :=
  let m := lastTagIdx s t
  let thr := (blkAt s m).lru
  let s1 := mapIdxB (fun i b =>
    if i ≠ m ∧ b.lru < thr then { b with lru := b.lru + 1 } else b) s 0
  modifyAt s1 m (fun b => { b with lru := 0 })

/-- The hit test of `Cache::read` on one set: some slot matches the tag
and is valid. -/
def readHitB (s : List Block) (t : Nat) : Bool :=
  s.any fun b => b.tag == t && b.valid

/-- Mirror of `Cache::install` on one set: populate the first invalid
slot (address, tag, valid — `dirty` is not written) and touch; `none`
models the panic when every slot is valid. -/
def installSet (s : List Block) (tag address : Nat) : Option (List Block) :=
  match firstIdxWhere (fun b => !b.valid) s with
  | none => none
  | some i =>
      some (updateLru
        (modifyAt s i fun b => { b with address := address, tag := tag, valid := true }) tag)

/-- The running-maximum scan of `Cache::evict_lru_block`: starting from
candidate `best` and maximum `maxv`, take any slot whose rank is strictly
greater than the running maximum. -/
def evictIdxAux : List Block → Nat → Nat → Nat → Nat
  | [], _, best, _ => best
  | b :: rest, base, best, maxv =>
      if maxv < b.lru then evictIdxAux rest (base + 1) base b.lru
      else evictIdxAux rest (base + 1) best maxv

/-- `block_to_evict_index` of `Cache::evict_lru_block`. -/
def evictIdx (s : List Block) : Nat :=
  evictIdxAux s 0 0 0

/-- Mirror of `Cache::evict_lru_block` on one set: invalidate the victim,
clear its dirty bit, and return its pre-eviction address and dirty flag. -/
def evictSet (s : List Block) : EvictionResult × List Block :=
  let i := evictIdx s
  let victim := blkAt s i
  (⟨victim.address, victim.dirty⟩,
   modifyAt s i fun b => { b with valid := false, dirty := false })

/-- Mirror of `struct Cache` (`cache.rs`): geometry plus the per-set
block lists. -/
structure Cache where
  cache_size : Nat
  assoc : Nat
  block_size : Nat
  sets : Nat
  index_bits : Nat
  block_offset_bits : Nat
  tag_bits : Nat
  cache : List (List Block)
deriving DecidableEq

/-- The set at `index` (`self.cache[index]`). -/
def Cache.getSet (c : Cache) (index : Nat) : List Block :=
  c.cache.getD index []

/-- Replace the set at `index`. -/
def Cache.setSet (c : Cache) (index : Nat) (s : List Block) : Cache :=
  { c with cache := c.cache.set index s }

/-- Mirror of `Cache::read`: hit iff some slot matches the tag **and** is
valid; a hit touches the set, a miss changes nothing. -/
def Cache.read (c : Cache) (index tag : Nat) : HitOrMiss × Cache :=
  let s := c.getSet index
  if readHitB s tag then (HitOrMiss.HIT, c.setSet index (updateLru s tag))
  else (HitOrMiss.MISS, c)

/-- Mirror of `Cache::write`: hit iff some slot matches the tag
(validity is **not** checked); on the first such slot set `valid`, touch,
then set `dirty`; a miss changes nothing. -/
def Cache.write (c : Cache) (index tag : Nat) : HitOrMiss × Cache :=
  let s := c.getSet index
  match firstIdxWhere (fun b => b.tag == tag) s with
  | none => (HitOrMiss.MISS, c)
  | some i =>
      (HitOrMiss.HIT, c.setSet index
        (modifyAt (updateLru (modifyAt s i fun b => { b with valid := true }) tag) i
          fun b => { b with dirty := true }))

/-- Mirror of `Cache::install`; `none` models the panic branch. -/
def Cache.install (c : Cache) (index tag address : Nat) : Option Cache :=
  (installSet (c.getSet index) tag address).map fun s => c.setSet index s

/-- Mirror of `Cache::set_is_full`. -/
def Cache.setIsFull (c : Cache) (index : Nat) : Bool :=
  (c.getSet index).all fun b => b.valid

/-- Mirror of `Cache::evict_lru_block`. -/
def Cache.evictLruBlock (c : Cache) (index : Nat) : EvictionResult × Cache :=
  let r := evictSet (c.getSet index)
  (r.1, c.setSet index r.2)

/-- Floor base-2 logarithm (fuel-based so that it evaluates by kernel
reduction); agrees with the `fast_math::log2`-then-truncate computation of
`Cache::new` on the power-of-two sizes used throughout. -/
def log2Aux : Nat → Nat → Nat
  | 0, _ => 0
  | fuel + 1, n => if n < 2 then 0 else log2Aux fuel (n / 2) + 1

/-- Floor base-2 logarithm. -/
def log2N (n : Nat) : Nat :=
  log2Aux n n

/-- One fresh set of `Cache::new`: `assoc` invalid clean blocks whose LRU
ranks are set to `0, 1, ..., assoc-1`. -/
def initSet (assoc : Nat) : List Block :=
  (List.range assoc).map fun j => { Block.new with lru := j }

/-- Mirror of `Cache::new`: a zero capacity yields the all-zero "absent"
cache; otherwise geometry is derived and every set starts invalid with
distinct LRU ranks. -/
def Cache.new (cache_size assoc block_size : Nat) : Cache :=
  if cache_size = 0 then
    { cache_size := 0, assoc := 0, block_size := 0, sets := 0, index_bits := 0,
      block_offset_bits := 0, tag_bits := 0, cache := [] }
  else
    let sets := cache_size / (assoc * block_size)
    let index_bits := log2N sets
    let block_offset_bits := log2N block_size
    let tag_bits := 32 - index_bits - block_offset_bits
    { cache_size := cache_size, assoc := assoc, block_size := block_size,
      sets := sets, index_bits := index_bits,
      block_offset_bits := block_offset_bits, tag_bits := tag_bits,
      cache := List.replicate sets (initSet assoc) }

/-- The set-index decode of `main.rs` (binary-string slice
`skip(tag_bits).take(index_bits)`, which for addresses below `2^32` is the
middle `index_bits` bits; an empty slice parses to `0` and so does
`x % 2^0`). -/
def Cache.indexOf (c : Cache) (address : Nat) : Nat :=
  (address >>> (32 - c.tag_bits - c.index_bits)) % 2 ^ c.index_bits

/-- The tag decode of `main.rs` (binary-string slice `take(tag_bits)`;
an empty slice fails to parse and `unwrap_or(0)` yields `0`). -/
def Cache.tagOf (c : Cache) (address : Nat) : Nat :=
  if c.tag_bits = 0 then 0 else address >>> (32 - c.tag_bits)

/-- Mirror of `struct Statistics` (`statistics.rs`). -/
structure Statistics where
  l1_reads : Nat
  l1_read_misses : Nat
  l1_writes : Nat
  l1_write_misses : Nat
  l1_write_backs : Nat
  l2_reads : Nat
  l2_read_misses : Nat
  l2_writes : Nat
  l2_write_misses : Nat
  l2_write_backs : Nat
  total_memory_traffic : Nat
  l1_prefetches : Nat
  l2_prefetches : Nat
  l2_reads_from_l1_prefetch : Nat
  l2_read_misses_from_l1_prefetch : Nat
deriving DecidableEq

/-- Mirror of `Statistics::new()`. -/
def Statistics.new : Statistics :=
  { l1_reads := 0, l1_read_misses := 0, l1_writes := 0, l1_write_misses := 0,
    l1_write_backs := 0, l2_reads := 0, l2_read_misses := 0, l2_writes := 0,
    l2_write_misses := 0, l2_write_backs := 0, total_memory_traffic := 0,
    l1_prefetches := 0, l2_prefetches := 0, l2_reads_from_l1_prefetch := 0,
    l2_read_misses_from_l1_prefetch := 0 }

/-- A trace operation: `r` or `w`. -/
inductive RW where
  | r
  | w
deriving DecidableEq

/-- Mirror of `main.rs` lines 122-184: handling of an L1 eviction result.
If L2 is absent, a dirty victim records an L1 write-back and one unit of
memory traffic.  If L2 is present, a dirty victim is written to L2 at the
victim address's L2 coordinates; if that write misses, the L2 set is
evicted when full (recording L2 write-back plus traffic for a dirty L2
victim) and the line is installed in L2 (note: the source passes the
**current access's** `address_usize` to that install) with one unit of
traffic; in both hit and miss cases an L1 write-back and an L2 write are
recorded. -/
def handleL1WriteBack (er : EvictionResult) (l2 : Cache) (stats : Statistics)
    (address : Nat) : Option (Cache × Statistics) :=
  if l2.cache_size ≠ 0 then
    if er.evicted_block_was_dirty then
      let wbIdx := l2.indexOf er.evicted_block_address
      let wbTag := l2.tagOf er.evicted_block_address
      let w := l2.write wbIdx wbTag
      let l2a := w.2
      if w.1 = HitOrMiss.MISS then
        let stats1 := { stats with l2_write_misses := stats.l2_write_misses + 1 }
        let step :=
          if l2a.setIsFull wbIdx then
            let e := l2a.evictLruBlock wbIdx
            (e.2,
             if e.1.evicted_block_was_dirty then
               { stats1 with
                 l2_write_backs := stats1.l2_write_backs + 1,
                 total_memory_traffic := stats1.total_memory_traffic + 1 }
             else stats1)
          else (l2a, stats1)
        match step.1.install wbIdx wbTag address with
        | none => none
        | some l2b =>
            some (l2b,
              { step.2 with
                total_memory_traffic := step.2.total_memory_traffic + 1,
                l1_write_backs := step.2.l1_write_backs + 1,
                l2_writes := step.2.l2_writes + 1 })
      else
        some (l2a,
          { stats with
            l1_write_backs := stats.l1_write_backs + 1,
            l2_writes := stats.l2_writes + 1 })
    else some (l2, stats)
  else
    if er.evicted_block_was_dirty then
      some (l2,
        { stats with
          l1_write_backs := stats.l1_write_backs + 1,
          total_memory_traffic := stats.total_memory_traffic + 1 })
    else some (l2, stats)

/-- Mirror of `main.rs` lines 186-242: after the L1 miss bookkeeping and
any eviction/write-back, fetch the missing line through L2 when present
(reading L2, evicting/installing there on an L2 read miss) or from main
memory otherwise, install it into L1, and on a write set the dirty bit by
a trailing `L1.write`.  `none` models the `Cache::install` panic. -/
def fetchAndInstall (l1 l2 : Cache) (stats : Statistics) (rw : RW)
    (address i1 t1 i2 t2 : Nat) : Option (Cache × Cache × Statistics) :=
  if l2.cache_size ≠ 0 then
    let a2 := l2.read i2 t2
    let l2c := a2.2
    if a2.1 = HitOrMiss.HIT then
      let stats3 := { stats with l2_reads := stats.l2_reads + 1 }
      match l1.install i1 t1 address with
      | none => none
      | some l1c =>
          if rw = RW.r then
            some (l1c, l2c, { stats3 with l1_reads := stats3.l1_reads + 1 })
          else
            some ((l1c.write i1 t1).2, l2c,
              { stats3 with l1_writes := stats3.l1_writes + 1 })
    else
      let stats3 := { stats with l2_read_misses := stats.l2_read_misses + 1 }
      let step2 :=
        if l2c.setIsFull i2 then
          let e2 := l2c.evictLruBlock i2
          (e2.2,
           if e2.1.evicted_block_was_dirty then
             { stats3 with
               l2_write_backs := stats3.l2_write_backs + 1,
               total_memory_traffic := stats3.total_memory_traffic + 1 }
           else stats3)
        else (l2c, stats3)
      match step2.1.install i2 t2 address with
      | none => none
      | some l2d =>
        let stats4 :=
          { step2.2 with
            total_memory_traffic := step2.2.total_memory_traffic + 1,
            l2_reads := step2.2.l2_reads + 1 }
        match l1.install i1 t1 address with
        | none => none
        | some l1c =>
            if rw = RW.r then
              some (l1c, l2d, { stats4 with l1_reads := stats4.l1_reads + 1 })
            else
              some ((l1c.write i1 t1).2, l2d,
                { stats4 with l1_writes := stats4.l1_writes + 1 })
  else
    match l1.install i1 t1 address with
    | none => none
    | some l1c =>
      let l1d := if rw = RW.w then (l1c.write i1 t1).2 else l1c
      let stats3 :=
        { stats with total_memory_traffic := stats.total_memory_traffic + 1 }
      some (l1d, l2,
        if rw = RW.r then { stats3 with l1_reads := stats3.l1_reads + 1 }
        else { stats3 with l1_writes := stats3.l1_writes + 1 })

/-- Mirror of one iteration of the trace loop of `main` (`main.rs` lines
96-243): issue the access to L1; on an L1 hit only count it; on a miss
count the miss, evict and write back a victim when the set is full
(`handleL1WriteBack`), and fetch/install via `fetchAndInstall`.  `none`
models the `Cache::install` panic. -/
def processAccess (l1 l2 : Cache) (stats : Statistics) (rw : RW)
    (address : Nat) : Option (Cache × Cache × Statistics) :=
  let i1 := l1.indexOf address
  let t1 := l1.tagOf address
  let i2 := l2.indexOf address
  let t2 := l2.tagOf address
  let a1 := if rw = RW.r then l1.read i1 t1 else l1.write i1 t1
  let l1a := a1.2
  if a1.1 = HitOrMiss.HIT then
    some (l1a, l2,
      if rw = RW.r then { stats with l1_reads := stats.l1_reads + 1 }
      else { stats with l1_writes := stats.l1_writes + 1 })
  else
    let stats1 :=
      if rw = RW.r then { stats with l1_read_misses := stats.l1_read_misses + 1 }
      else { stats with l1_write_misses := stats.l1_write_misses + 1 }
    let step1 : Option (Cache × Cache × Statistics) :=
      if l1a.setIsFull i1 then
        let e := l1a.evictLruBlock i1
        (handleL1WriteBack e.1 l2 stats1 address).map fun p => (e.2, p.1, p.2)
      else some (l1a, l2, stats1)
    match step1 with
    | none => none
    | some (l1b, l2b, stats2) =>
      fetchAndInstall l1b l2b stats2 rw address i1 t1 i2 t2

/-- The trace loop of `main`: process accesses in order; `none` models an
aborted run (install panic). -/
def processTrace (l1 l2 : Cache) (stats : Statistics) :
    List (RW × Nat) → Option (Cache × Cache × Statistics)
  | [] => some (l1, l2, stats)
  | (rw, a) :: rest =>
    match processAccess l1 l2 stats rw a with
    | none => none
    | some (l1a, l2a, statsa) => processTrace l1a l2a statsa rest

/-! ## Concrete end-to-end runs -/

/-- The configuration `(block_size=32, L1_size=1024, L1_assoc=2, no L2)`
run on the trace `["r 00000000", "r 00000000", "w 00000020"]`. -/
def c1Run : Option (Cache × Cache × Statistics) :=
  processTrace (Cache.new 1024 2 32) (Cache.new 0 0 0) Statistics.new
    [(RW.r, 0x0), (RW.r, 0x0), (RW.w, 0x20)]

/-- A run exhibiting the wrong stored address: `(block_size=32,
L1=(128,1), L2=(128,2))` on the trace `["w 00000100", "r 00000040",
"r 000000c0", "r 00000200"]`.  The last access evicts the dirty line
`0x100` from L1; its write-back misses in L2 and `main.rs` installs the
victim line into L2 passing the **current** access's address `0x200`. -/
def c3Run : Option (Cache × Cache × Statistics) :=
  processTrace (Cache.new 128 1 32) (Cache.new 128 2 32) Statistics.new
    [(RW.w, 0x100), (RW.r, 0x40), (RW.r, 0xc0), (RW.r, 0x200)]


/-- C1, counterexample: on the claimed configuration and trace the final
counters are **not** `(l1_reads, l1_read_misses, l1_writes,
l1_write_misses) = (2, 1, 1, 1)`: the third access `w 00000020` decodes to
tag 0, and `Cache::write` matches tags without checking validity, so it
hits the still-invalid tag-0 block of set 1 instead of missing. -/
theorem claim1_counterexample :
    c1Run.map (fun x =>
      (x.2.2.l1_reads, x.2.2.l1_read_misses, x.2.2.l1_writes,
       x.2.2.l1_write_misses)) ≠ some (2, 1, 1, 1) := by
  decide

/-- C1, amended: for the configuration `(block_size=32, L1_size=1024,
L1_assoc=2, L2_size=0, L2_assoc=0)`, processing the trace
`["r 00000000", "r 00000000", "w 00000020"]` from the initial (all-invalid)
cache state yields final counters `l1_reads == 2`, `l1_read_misses == 1`,
`l1_writes == 1`, and `l1_write_misses == 0` (the write is a spurious hit:
write hit-detection ignores the valid bit, and the cold blocks of set 1
carry tag 0, which is exactly the decoded tag of address `0x20`). -/
theorem claim1_amended_counters :
    c1Run.map (fun x =>
      (x.2.2.l1_reads, x.2.2.l1_read_misses, x.2.2.l1_writes,
       x.2.2.l1_write_misses)) = some (2, 1, 1, 0) := by
  decide

/-- C3: the final state of the `c3Run` trace contains a **valid** L2 block
(set 0, way 1) whose stored tag is 4 (the write-back victim line `0x100`)
but whose stored address field is 512 = `0x200` (the access that triggered
the eviction); decoding that stored address with L2's own geometry yields
tag 8 ≠ 4.  So the stored address field of a valid block is not the
address of the resident line: the claim's invariant fails on the code. -/
theorem claim3_bug_exhibit :
    c3Run.map (fun x =>
      let b := blkAt (x.2.1.getSet 0) 1
      (b.valid, b.tag, b.address, x.2.1.tagOf b.address)) =
      some (true, 4, 512, 8) ∧ (8 : Nat) ≠ 4 := by
  exact ⟨by decide, by decide⟩

/-- The states a single cache level can reach: constructed by
`Cache::new` with nonzero capacity and then transformed by any sequence of
`read`, `write`, `install` (where it succeeds) and `evict_lru_block`
operations, as the hierarchy controller drives it. -/
inductive CacheReachable : Cache → Prop where
  | init (cache_size assoc block_size : Nat) (h : cache_size ≠ 0) :
      CacheReachable (Cache.new cache_size assoc block_size)
  | read (c : Cache) (index tag : Nat) (h : CacheReachable c) :
      CacheReachable (c.read index tag).2
  | write (c : Cache) (index tag : Nat) (h : CacheReachable c) :
      CacheReachable (c.write index tag).2
  | install (c c2 : Cache) (index tag address : Nat) (h : CacheReachable c)
      (hi : c.install index tag address = some c2) : CacheReachable c2
  | evict (c : Cache) (index : Nat) (h : CacheReachable c) :
      CacheReachable (c.evictLruBlock index).2

/-- Well-formedness of a present cache level: at least one way per set,
exactly `sets` sets of exactly `assoc` slots each, and a power-of-two set
count matching the index width (as produced by `Cache::new` for the
power-of-two configurations the simulator is specified for). -/
def WFCache (c : Cache) : Prop :=
  1 ≤ c.assoc ∧ c.cache.length = c.sets ∧ c.sets = 2 ^ c.index_bits ∧
    ∀ s ∈ c.cache, s.length = c.assoc

/-- Well-formedness of the L2 argument of the controller: either absent
(capacity 0, as built by `Cache::new 0 _ _`) or well-formed. -/
def WFL2 (c : Cache) : Prop :=
  c.cache_size = 0 ∨ WFCache c

/-! ## Basic lemmas about the set-scanning helpers -/

theorem modifyAt_length (s : List Block) (i : Nat) (f : Block → Block) :
    (modifyAt s i f).length = s.length := by
  induction s generalizing i with
  | nil => rfl
  | cons b rest ih =>
    cases i with
    | zero => rfl
    | succ n => simpa [modifyAt] using ih n

theorem mapIdxB_length (f : Nat → Block → Block) (s : List Block) (base : Nat) :
    (mapIdxB f s base).length = s.length := by
  induction s generalizing base with
  | nil => rfl
  | cons b rest ih => simpa [mapIdxB] using ih _

theorem blkAt_nil (j : Nat) : blkAt [] j = Block.new := rfl

theorem blkAt_cons_zero (b : Block) (rest : List Block) :
    blkAt (b :: rest) 0 = b := rfl

theorem blkAt_cons_succ (b : Block) (rest : List Block) (j : Nat) :
    blkAt (b :: rest) (j + 1) = blkAt rest j := rfl

theorem blkAt_of_length_le (s : List Block) (j : Nat) (h : s.length ≤ j) :
    blkAt s j = Block.new := by
  induction s generalizing j with
  | nil => rfl
  | cons b rest ih =>
    cases j with
    | zero => simp at h
    | succ n => exact ih n (by simpa using h)

theorem blkAt_modifyAt (s : List Block) (i : Nat) (f : Block → Block) (j : Nat) :
    blkAt (modifyAt s i f) j =
      if j = i ∧ j < s.length then f (blkAt s j) else blkAt s j := by
  induction s generalizing i j with
  | nil => simp [modifyAt]
  | cons b rest ih =>
    cases i with
    | zero =>
      cases j with
      | zero => simp [modifyAt]; rfl
      | succ jj => simp [modifyAt, blkAt_cons_succ]
    | succ n =>
      cases j with
      | zero => simp [modifyAt]; rfl
      | succ jj =>
        have := ih n jj
        simp only [modifyAt, blkAt_cons_succ, List.length_cons]
        rw [this]
        by_cases h1 : jj = n ∧ jj < rest.length
        · rw [if_pos h1, if_pos ⟨by omega, by omega⟩]
        · rw [if_neg h1, if_neg (by omega)]

theorem blkAt_mapIdxB (f : Nat → Block → Block) (s : List Block) (base j : Nat)
    (hj : j < s.length) :
    blkAt (mapIdxB f s base) j = f (base + j) (blkAt s j) := by
  induction s generalizing base j with
  | nil => simp at hj
  | cons b rest ih =>
    cases j with
    | zero => rfl
    | succ jj =>
      have := ih (base + 1) jj (by simpa using hj)
      simpa [mapIdxB, blkAt_cons_succ, Nat.add_assoc, Nat.add_comm 1 jj] using this

theorem firstIdxWhere_eq_none_iff (p : Block → Bool) (s : List Block) :
    firstIdxWhere p s = none ↔ ∀ b ∈ s, p b = false := by
  induction s with
  | nil => simp [firstIdxWhere]
  | cons b rest ih =>
    by_cases hb : p b
    · simp [firstIdxWhere, hb]
    · simp [firstIdxWhere, hb, ih, Bool.not_eq_true]

theorem firstIdxWhere_spec (p : Block → Bool) (s : List Block) (i : Nat)
    (h : firstIdxWhere p s = some i) :
    i < s.length ∧ p (blkAt s i) = true ∧ ∀ j < i, p (blkAt s j) = false := by
  induction s generalizing i with
  | nil => cases h
  | cons b rest ih =>
    by_cases hb : p b
    · simp [firstIdxWhere, hb] at h
      subst h
      exact ⟨by simp, by simpa [blkAt_cons_zero], by omega⟩
    · simp [firstIdxWhere, hb] at h
      obtain ⟨k, hk, rfl⟩ := h
      obtain ⟨h1, h2, h3⟩ := ih k hk
      refine ⟨by simpa using Nat.succ_lt_succ h1, by simpa [blkAt_cons_succ], ?_⟩
      intro j hj
      cases j with
      | zero => simpa [blkAt_cons_zero, Bool.not_eq_true] using hb
      | succ jj => simpa [blkAt_cons_succ] using h3 jj (by omega)

theorem firstIdxWhere_eq_some (p : Block → Bool) (s : List Block) (i : Nat)
    (h1 : i < s.length) (h2 : p (blkAt s i) = true)
    (h3 : ∀ j < i, p (blkAt s j) = false) :
    firstIdxWhere p s = some i := by
  induction s generalizing i with
  | nil => simp at h1
  | cons b rest ih =>
    cases i with
    | zero =>
      have hb : p b = true := by simpa [blkAt] using h2
      simp [firstIdxWhere, hb]
    | succ k =>
      have hb : p b = false := by simpa [blkAt_cons_zero] using h3 0 (Nat.succ_pos k)
      have := ih k (by simpa using h1) (by simpa [blkAt_cons_succ] using h2)
        (fun j hj => by simpa [blkAt_cons_succ] using h3 (j + 1) (Nat.succ_lt_succ hj))
      simp [firstIdxWhere, hb, this]

theorem blkAt_eq_getElem (s : List Block) (i : Nat) (h : i < s.length) :
    blkAt s i = s[i] := by
  simp [blkAt, List.getD_eq_getElem?_getD, List.getElem?_eq_getElem h]

theorem blkAt_mem (s : List Block) (i : Nat) (h : i < s.length) :
    blkAt s i ∈ s := by
  rw [blkAt_eq_getElem s i h]
  exact List.getElem_mem h

theorem blkAt_ext (s r : List Block) (hl : s.length = r.length)
    (h : ∀ j < s.length, blkAt s j = blkAt r j) : s = r := by
  apply List.ext_getElem hl
  intro i h1 h2
  have := h i h1
  rwa [blkAt_eq_getElem s i h1, blkAt_eq_getElem r i h2] at this

theorem lastTagIdxAux_cases (t : Nat) (s : List Block) (base acc : Nat) :
    lastTagIdxAux t s base acc = acc ∨
      (base ≤ lastTagIdxAux t s base acc ∧
       lastTagIdxAux t s base acc < base + s.length) := by
  induction s generalizing base acc with
  | nil => left; rfl
  | cons b rest ih =>
    simp only [lastTagIdxAux, List.length_cons]
    rcases ih (base + 1) (if b.tag = t then base else acc) with h | h
    · rw [h]
      by_cases hb : b.tag = t
      · rw [if_pos hb]; right; omega
      · rw [if_neg hb]; left; rfl
    · right; omega

theorem lastTagIdx_lt (s : List Block) (t : Nat) (h : s ≠ []) :
    lastTagIdx s t < s.length := by
  have hc := lastTagIdxAux_cases t s 0 0
  have hlen : 0 < s.length := List.length_pos.mpr h
  unfold lastTagIdx
  omega

theorem lastTagIdxAux_no_match (t : Nat) (s : List Block) (base acc : Nat)
    (h : ∀ k < s.length, (blkAt s k).tag ≠ t) :
    lastTagIdxAux t s base acc = acc := by
  induction s generalizing base acc with
  | nil => rfl
  | cons b rest ih =>
    have hb : ¬ b.tag = t := by simpa [blkAt] using h 0 (by simp)
    simp only [lastTagIdxAux, if_neg hb]
    exact ih (base + 1) acc fun k hk => by
      simpa [blkAt_cons_succ] using h (k + 1) (by simpa using Nat.succ_lt_succ hk)

theorem lastTagIdxAux_last_match (t : Nat) (s : List Block) (base acc j : Nat)
    (hj : j < s.length) (hmatch : (blkAt s j).tag = t)
    (hlast : ∀ k, j < k → k < s.length → (blkAt s k).tag ≠ t) :
    lastTagIdxAux t s base acc = base + j := by
  induction s generalizing base acc j with
  | nil => simp at hj
  | cons b rest ih =>
    cases j with
    | zero =>
      have hb : b.tag = t := by simpa [blkAt] using hmatch
      simp only [lastTagIdxAux, if_pos hb]
      rw [lastTagIdxAux_no_match t rest (base + 1) base fun k hk => by
        simpa [blkAt_cons_succ] using
          hlast (k + 1) (Nat.succ_pos k) (by simpa using Nat.succ_lt_succ hk)]
      omega
    | succ jj =>
      simp only [lastTagIdxAux]
      rw [ih (base + 1) (if b.tag = t then base else acc) jj (by simpa using hj)
        (by simpa [blkAt_cons_succ] using hmatch)
        (fun k hk1 hk2 => by
          simpa [blkAt_cons_succ] using
            hlast (k + 1) (by omega) (by simpa using Nat.succ_lt_succ hk2))]
      omega

theorem lastTagIdx_eq_of_unique (s : List Block) (t : Nat) (i : Nat)
    (hi : i < s.length) (hmatch : (blkAt s i).tag = t)
    (huniq : ∀ j < s.length, j ≠ i → (blkAt s j).tag ≠ t) :
    lastTagIdx s t = i := by
  unfold lastTagIdx
  rw [lastTagIdxAux_last_match t s 0 0 i hi hmatch
    (fun k hk1 hk2 => huniq k hk2 (by omega))]
  omega

theorem lastTagIdxAux_congr (t : Nat) (s r : List Block) (base acc : Nat)
    (h : s.map Block.tag = r.map Block.tag) :
    lastTagIdxAux t s base acc = lastTagIdxAux t r base acc := by
  induction s generalizing r base acc with
  | nil =>
    cases r with
    | nil => rfl
    | cons b2 rest2 => simp at h
  | cons b rest ih =>
    cases r with
    | nil => simp at h
    | cons b2 rest2 =>
      simp only [List.map_cons, List.cons.injEq] at h
      simp only [lastTagIdxAux, h.1]
      exact ih rest2 (base + 1) _ h.2

theorem map_tag_modifyAt (s : List Block) (i : Nat) (f : Block → Block)
    (h : ∀ b, (f b).tag = b.tag) :
    (modifyAt s i f).map Block.tag = s.map Block.tag := by
  induction s generalizing i with
  | nil => rfl
  | cons b rest ih =>
    cases i with
    | zero => simp [modifyAt, h b]
    | succ n => simp [modifyAt, ih n]

theorem updateLru_length (s : List Block) (t : Nat) :
    (updateLru s t).length = s.length := by
  simp [updateLru, modifyAt_length, mapIdxB_length]

theorem blkAt_updateLru (s : List Block) (t j : Nat) (hj : j < s.length) :
    blkAt (updateLru s t) j =
      if j = lastTagIdx s t then { blkAt s j with lru := 0 }
      else if (blkAt s j).lru < (blkAt s (lastTagIdx s t)).lru then
        { blkAt s j with lru := (blkAt s j).lru + 1 }
      else blkAt s j := by
  have hm : lastTagIdx s t < s.length :=
    lastTagIdx_lt s t (by intro hs; subst hs; simp at hj)
  unfold updateLru
  simp only []
  rw [blkAt_modifyAt, mapIdxB_length]
  by_cases hjm : j = lastTagIdx s t
  · subst hjm
    rw [if_pos ⟨rfl, hj⟩, blkAt_mapIdxB _ _ _ _ hj, Nat.zero_add]
    simp
  · rw [if_neg (by tauto), blkAt_mapIdxB _ _ _ _ hj, Nat.zero_add, if_neg hjm]
    by_cases hlt : (blkAt s j).lru < (blkAt s (lastTagIdx s t)).lru
    · rw [if_pos ⟨hjm, hlt⟩, if_pos hlt]
    · rw [if_neg (by tauto), if_neg hlt]

theorem updateLru_fields (s : List Block) (t j : Nat) :
    (blkAt (updateLru s t) j).tag = (blkAt s j).tag ∧
    (blkAt (updateLru s t) j).address = (blkAt s j).address ∧
    (blkAt (updateLru s t) j).valid = (blkAt s j).valid ∧
    (blkAt (updateLru s t) j).dirty = (blkAt s j).dirty := by
  by_cases hj : j < s.length
  · rw [blkAt_updateLru s t j hj]
    split
    · simp
    · split <;> simp
  · rw [blkAt_of_length_le _ _ (by rw [updateLru_length]; omega),
      blkAt_of_length_le _ _ (by omega)]
    exact ⟨rfl, rfl, rfl, rfl⟩

theorem modifyAt_modifyAt_same (s : List Block) (i : Nat) (f g : Block → Block) :
    modifyAt (modifyAt s i f) i g = modifyAt s i (fun b => g (f b)) := by
  induction s generalizing i with
  | nil => rfl
  | cons b rest ih =>
    cases i with
    | zero => rfl
    | succ n => simp [modifyAt, ih n]

theorem updateLru_modifyAt_dirty (s : List Block) (i t : Nat) :
    updateLru (modifyAt s i fun b => { b with dirty := true }) t =
      modifyAt (updateLru s t) i fun b => { b with dirty := true } := by
  have hm : lastTagIdx (modifyAt s i fun b => { b with dirty := true }) t
      = lastTagIdx s t := by
    unfold lastTagIdx
    exact lastTagIdxAux_congr t _ s 0 0 (map_tag_modifyAt s i _ fun b => rfl)
  apply blkAt_ext
  · rw [updateLru_length, modifyAt_length, modifyAt_length, updateLru_length]
  · intro j hj
    rw [updateLru_length, modifyAt_length] at hj
    have hthr : (blkAt (modifyAt s i fun b => { b with dirty := true })
        (lastTagIdx s t)).lru = (blkAt s (lastTagIdx s t)).lru := by
      rw [blkAt_modifyAt]
      split <;> rfl
    rw [blkAt_updateLru _ t j (by rw [modifyAt_length]; exact hj), hm, hthr,
      blkAt_modifyAt (updateLru s t) i _ j, blkAt_modifyAt s i _ j,
      blkAt_updateLru s t j hj, updateLru_length]
    by_cases hji : j = i ∧ j < s.length
    · obtain ⟨h1, _⟩ := hji
      subst h1
      by_cases hjm : j = lastTagIdx s t
      · rw [← hjm]
        simp [hj]
      · by_cases hlt : (blkAt s j).lru < (blkAt s (lastTagIdx s t)).lru
        · simp [hjm, hlt, hj]
        · simp [hjm, hlt, hj]
    · have hnj : ¬ j = i := fun hc => hji ⟨hc, hj⟩
      by_cases hjm : j = lastTagIdx s t
      · have hmi : ¬ (lastTagIdx s t = i ∧ lastTagIdx s t < s.length) :=
          fun hc => hnj (hjm.trans hc.1)
        rw [← hjm]
        simp [hji, hnj]
      · by_cases hlt : (blkAt s j).lru < (blkAt s (lastTagIdx s t)).lru
        · simp [hji, hjm, hlt]
        · simp [hji, hjm, hlt]

/-- C2: for every cache level, set index and tag, `write` returns `HIT`
iff some slot of that set has an equal tag — irrespective of that slot's
valid bit.  On a hit the first such slot gets `valid := true` and
`dirty := true` and the set receives the LRU touch (`updateLru`); on a
miss nothing at all changes. -/
theorem claim2_write_semantics (c : Cache) (index tag : Nat) :
    (((c.write index tag).1 = HitOrMiss.HIT) ↔
        ∃ b ∈ c.getSet index, b.tag = tag) ∧
    ((c.write index tag).1 = HitOrMiss.MISS → (c.write index tag).2 = c) ∧
    (∀ i, i < (c.getSet index).length → (blkAt (c.getSet index) i).tag = tag →
      (∀ j < i, (blkAt (c.getSet index) j).tag ≠ tag) →
      (c.write index tag).2 = c.setSet index
        (updateLru (modifyAt (c.getSet index) i
          fun b => { b with valid := true, dirty := true }) tag)) := by
  cases hfw : firstIdxWhere (fun b => b.tag == tag) (c.getSet index) with
  | none =>
    have hno := (firstIdxWhere_eq_none_iff _ _).mp hfw
    refine ⟨?_, fun _ => by simp [Cache.write, hfw], ?_⟩
    · simp only [Cache.write, hfw]
      constructor
      · intro h; cases h
      · rintro ⟨b, hb, hbt⟩
        have := hno b hb
        simp [hbt] at this
    · intro i hi hti _
      exfalso
      have := hno (blkAt (c.getSet index) i) (blkAt_mem _ _ hi)
      simp [hti] at this
  | some i0 =>
    obtain ⟨h1, h2, h3⟩ := firstIdxWhere_spec _ _ _ hfw
    have ht0 : (blkAt (c.getSet index) i0).tag = tag := by simpa using h2
    refine ⟨?_, ?_, ?_⟩
    · constructor
      · intro _
        exact ⟨blkAt (c.getSet index) i0, blkAt_mem _ _ h1, ht0⟩
      · intro _
        simp [Cache.write, hfw]
    · intro h
      simp [Cache.write, hfw] at h
    · intro i hi hti hfirst
      have : firstIdxWhere (fun b => b.tag == tag) (c.getSet index) = some i :=
        firstIdxWhere_eq_some _ _ i hi (by simpa using hti)
          (fun j hj => by simpa using hfirst j hj)
      rw [hfw] at this
      injection this with hii
      subst hii
      simp only [Cache.write, hfw]
      congr 1
      have hcomp : modifyAt (c.getSet index) i0
          (fun b => { b with valid := true, dirty := true }) =
          modifyAt (modifyAt (c.getSet index) i0 fun b => { b with valid := true })
            i0 (fun b => { b with dirty := true }) := by
        rw [modifyAt_modifyAt_same]
      rw [hcomp, updateLru_modifyAt_dirty]

/-- Witness for C2 at a concrete input: on the freshly constructed cache
`Cache.new 64 2 32`, writing tag 5 to set 0 misses (no slot carries tag 5)
and leaves the cache unchanged. -/
theorem claim2_write_semantics_witness :
    ((Cache.new 64 2 32).write 0 5).1 = HitOrMiss.MISS ∧
    ((Cache.new 64 2 32).write 0 5).2 = Cache.new 64 2 32 := by
  have h := claim2_write_semantics (Cache.new 64 2 32) 0 5
  exact ⟨by decide, h.2.1 (by decide)⟩

/-- C4: when the resident tag identifies slot `i` of the set, the touch
operation (`update_lru`) sets slot `i`'s recency rank to 0, increments the
rank of exactly those other slots whose rank was strictly less than slot
`i`'s previous rank and leaves ranks that were greater or equal unchanged,
and preserves the relative recency order among untouched slots (stated for
a comparison slot whose rank differs from the touched slot's previous
rank, which is guaranteed by the distinct-ranks invariant of C9). -/
theorem claim4_touch_semantics (s : List Block) (t i : Nat)
    (hi : i < s.length) (hmatch : (blkAt s i).tag = t)
    (huniq : ∀ j < s.length, j ≠ i → (blkAt s j).tag ≠ t) :
    (blkAt (updateLru s t) i).lru = 0 ∧
    (∀ j < s.length, j ≠ i →
      (blkAt (updateLru s t) j).lru =
        (if (blkAt s j).lru < (blkAt s i).lru then (blkAt s j).lru + 1
         else (blkAt s j).lru)) ∧
    (∀ j k, j < s.length → k < s.length → j ≠ i → k ≠ i →
      (blkAt s j).lru < (blkAt s k).lru → (blkAt s k).lru ≠ (blkAt s i).lru →
      (blkAt (updateLru s t) j).lru < (blkAt (updateLru s t) k).lru) := by
  have hm : lastTagIdx s t = i := lastTagIdx_eq_of_unique s t i hi hmatch huniq
  refine ⟨?_, ?_, ?_⟩
  · rw [blkAt_updateLru s t i hi, hm, if_pos rfl]
  · intro j hj hne
    rw [blkAt_updateLru s t j hj, hm, if_neg hne]
    split <;> rfl
  · intro j k hj hk hjne hkne hlt hne
    rw [blkAt_updateLru s t j hj, blkAt_updateLru s t k hk, hm,
      if_neg hjne, if_neg hkne]
    by_cases h1 : (blkAt s j).lru < (blkAt s i).lru
    · rw [if_pos h1]
      by_cases h2 : (blkAt s k).lru < (blkAt s i).lru
      · rw [if_pos h2]
        show (blkAt s j).lru + 1 < (blkAt s k).lru + 1
        omega
      · rw [if_neg h2]
        show (blkAt s j).lru + 1 < (blkAt s k).lru
        omega
    · rw [if_neg h1]
      by_cases h2 : (blkAt s k).lru < (blkAt s i).lru
      · rw [if_pos h2]
        show (blkAt s j).lru < (blkAt s k).lru + 1
        omega
      · rw [if_neg h2]
        exact hlt

/-- Witness for C4 at a concrete input: touching tag 3 (resident in slot 1
with rank 1) of a two-slot set promotes slot 1 to rank 0 and increments
slot 0 (rank 0 < 1). -/
theorem claim4_touch_semantics_witness :
    (blkAt (updateLru
      [{ address := 0, tag := 7, lru := 0, valid := true, dirty := false },
       { address := 0, tag := 3, lru := 1, valid := true, dirty := false }] 3) 1).lru = 0 ∧
    (blkAt (updateLru
      [{ address := 0, tag := 7, lru := 0, valid := true, dirty := false },
       { address := 0, tag := 3, lru := 1, valid := true, dirty := false }] 3) 0).lru = 1 := by
  have h := claim4_touch_semantics
    [{ address := 0, tag := 7, lru := 0, valid := true, dirty := false },
     { address := 0, tag := 3, lru := 1, valid := true, dirty := false }] 3 1
    (by decide) (by decide) (by decide)
  refine ⟨h.1, ?_⟩
  have h0 := h.2.1 0 (by decide) (by decide)
  simpa using h0

theorem evictIdxAux_spec (s : List Block) (base best maxv : Nat) :
    ((∀ k < s.length, (blkAt s k).lru ≤ maxv) ∧
      evictIdxAux s base best maxv = best) ∨
    (∃ j, j < s.length ∧ evictIdxAux s base best maxv = base + j ∧
      maxv < (blkAt s j).lru ∧
      (∀ k < s.length, (blkAt s k).lru ≤ (blkAt s j).lru) ∧
      (∀ k < j, (blkAt s k).lru < (blkAt s j).lru)) := by
  induction s generalizing base best maxv with
  | nil => left; exact ⟨fun k hk => by simp at hk, rfl⟩
  | cons b rest ih =>
    by_cases hb : maxv < b.lru
    · simp only [evictIdxAux, if_pos hb]
      rcases ih (base + 1) base b.lru with ⟨hall, heq⟩ | ⟨j, hj, heq, hgt, hmax, hpre⟩
      · right
        refine ⟨0, by simp, by rw [heq]; omega, by simpa [blkAt] using hb, ?_, by omega⟩
        intro k hk
        cases k with
        | zero => simp [blkAt]
        | succ kk =>
          have := hall kk (by simpa using hk)
          simpa [blkAt_cons_succ, blkAt] using this
      · right
        refine ⟨j + 1, by simpa using Nat.succ_lt_succ hj, by rw [heq]; omega,
          by simpa [blkAt_cons_succ] using (by omega : maxv < (blkAt rest j).lru), ?_, ?_⟩
        · intro k hk
          cases k with
          | zero =>
            simp only [blkAt_cons_zero, blkAt_cons_succ]
            omega
          | succ kk =>
            simpa [blkAt_cons_succ] using hmax kk (by simpa using hk)
        · intro k hk
          cases k with
          | zero =>
            simp only [blkAt_cons_zero, blkAt_cons_succ]
            omega
          | succ kk =>
            simpa [blkAt_cons_succ] using hpre kk (by omega)
    · simp only [evictIdxAux, if_neg hb]
      rcases ih (base + 1) best maxv with ⟨hall, heq⟩ | ⟨j, hj, heq, hgt, hmax, hpre⟩
      · left
        refine ⟨?_, heq⟩
        intro k hk
        cases k with
        | zero => simpa [blkAt] using (by omega : b.lru ≤ maxv)
        | succ kk => simpa [blkAt_cons_succ] using hall kk (by simpa using hk)
      · right
        refine ⟨j + 1, by simpa using Nat.succ_lt_succ hj, by rw [heq]; omega,
          by simpa [blkAt_cons_succ] using hgt, ?_, ?_⟩
        · intro k hk
          cases k with
          | zero =>
            simp only [blkAt_cons_zero, blkAt_cons_succ]
            omega
          | succ kk =>
            simpa [blkAt_cons_succ] using hmax kk (by simpa using hk)
        · intro k hk
          cases k with
          | zero =>
            simp only [blkAt_cons_zero, blkAt_cons_succ]
            omega
          | succ kk =>
            simpa [blkAt_cons_succ] using hpre kk (by omega)

theorem evictIdx_spec (s : List Block) (h : s ≠ []) :
    evictIdx s < s.length ∧
    (∀ k < s.length, (blkAt s k).lru ≤ (blkAt s (evictIdx s)).lru) ∧
    (∀ k < evictIdx s, (blkAt s k).lru < (blkAt s (evictIdx s)).lru) := by
  have hs : 0 < s.length := List.length_pos.mpr h
  rcases evictIdxAux_spec s 0 0 0 with ⟨hall, heq⟩ | ⟨j, hj, heq, _, hmax, hpre⟩
  · unfold evictIdx
    rw [heq]
    refine ⟨hs, ?_, by omega⟩
    intro k hk
    have h1 := hall k hk
    have h2 := hall 0 hs
    omega
  · unfold evictIdx
    rw [heq, Nat.zero_add]
    exact ⟨hj, hmax, hpre⟩

/-- C5: for every (nonempty) set, `evict_lru_block` selects as victim the
first slot attaining the numerically largest recency rank (the first slot
whose rank strictly exceeds the running maximum, which starts at 0), sets
that slot's valid bit to false, clears its dirty bit, and returns the
slot's pre-eviction stored address together with its pre-eviction dirty
flag; no other slot is modified. -/
theorem claim5_evict_semantics (s : List Block) (h : s ≠ []) :
    evictIdx s < s.length ∧
    (∀ k < s.length, (blkAt s k).lru ≤ (blkAt s (evictIdx s)).lru) ∧
    (∀ k < evictIdx s, (blkAt s k).lru < (blkAt s (evictIdx s)).lru) ∧
    (evictSet s).1.evicted_block_address = (blkAt s (evictIdx s)).address ∧
    (evictSet s).1.evicted_block_was_dirty = (blkAt s (evictIdx s)).dirty ∧
    (blkAt (evictSet s).2 (evictIdx s)).valid = false ∧
    (blkAt (evictSet s).2 (evictIdx s)).dirty = false ∧
    (blkAt (evictSet s).2 (evictIdx s)).address = (blkAt s (evictIdx s)).address ∧
    (blkAt (evictSet s).2 (evictIdx s)).tag = (blkAt s (evictIdx s)).tag ∧
    (blkAt (evictSet s).2 (evictIdx s)).lru = (blkAt s (evictIdx s)).lru ∧
    (∀ j < s.length, j ≠ evictIdx s → blkAt (evictSet s).2 j = blkAt s j) ∧
    (evictSet s).2.length = s.length := by
  obtain ⟨hv, hmax, hpre⟩ := evictIdx_spec s h
  have h2 : (evictSet s).2 = modifyAt s (evictIdx s)
      (fun b => { b with valid := false, dirty := false }) := rfl
  refine ⟨hv, hmax, hpre, rfl, rfl, ?_, ?_, ?_, ?_, ?_, ?_, ?_⟩
  · rw [h2, blkAt_modifyAt, if_pos ⟨rfl, hv⟩]
  · rw [h2, blkAt_modifyAt, if_pos ⟨rfl, hv⟩]
  · rw [h2, blkAt_modifyAt, if_pos ⟨rfl, hv⟩]
  · rw [h2, blkAt_modifyAt, if_pos ⟨rfl, hv⟩]
  · rw [h2, blkAt_modifyAt, if_pos ⟨rfl, hv⟩]
  · intro j hj hne
    rw [h2, blkAt_modifyAt, if_neg (by tauto)]
  · rw [h2, modifyAt_length]

/-- Witness for C5 at a concrete input: in a two-slot set with ranks
`[1, 0]`, the victim is slot 0; its address 10 and dirty flag `true` are
returned and the slot is invalidated. -/
theorem claim5_evict_semantics_witness :
    (evictSet
      [{ address := 10, tag := 1, lru := 1, valid := true, dirty := true },
       { address := 20, tag := 2, lru := 0, valid := true, dirty := false }]).1.evicted_block_address = 10 ∧
    (evictSet
      [{ address := 10, tag := 1, lru := 1, valid := true, dirty := true },
       { address := 20, tag := 2, lru := 0, valid := true, dirty := false }]).1.evicted_block_was_dirty = true ∧
    (blkAt (evictSet
      [{ address := 10, tag := 1, lru := 1, valid := true, dirty := true },
       { address := 20, tag := 2, lru := 0, valid := true, dirty := false }]).2
      (evictIdx
        [{ address := 10, tag := 1, lru := 1, valid := true, dirty := true },
         { address := 20, tag := 2, lru := 0, valid := true, dirty := false }])).valid = false := by
  have h := claim5_evict_semantics
    [{ address := 10, tag := 1, lru := 1, valid := true, dirty := true },
     { address := 20, tag := 2, lru := 0, valid := true, dirty := false }] (by decide)
  refine ⟨?_, ?_, h.2.2.2.2.2.1⟩
  · rw [h.2.2.2.1]; decide
  · rw [h.2.2.2.2.1]; decide

/-- C6, counterexample: `install` does **not** write the dirty field, so
installing into a set whose first invalid slot carries a stale dirty bit
leaves that slot dirty — contradicting the claim's "afterwards that slot
has ... dirty == false" at this concrete input. -/
theorem claim6_counterexample :
    (installSet
        [{ address := 0, tag := 0, lru := 0, valid := false, dirty := true }]
        5 7).map (fun r => (blkAt r 0).dirty) = some true := by
  decide

/-- C6, amended: for every set containing at least one invalid slot,
`install(index, tag, address)` populates the first invalid slot so that
afterwards that slot has `valid == true`, the given tag, the given
address, and its dirty bit **unchanged from before the install** (hence
`false` whenever the slot was clean, as in every reachable state by C10),
and then performs the LRU touch; no other slot's tag, address, valid or
dirty fields change. -/
theorem claim6_amended_install_semantics (s : List Block) (t a i : Nat)
    (hi : i < s.length) (hinv : (blkAt s i).valid = false)
    (hfirst : ∀ j < i, (blkAt s j).valid = true) :
    ∃ r, installSet s t a = some r ∧
      r.length = s.length ∧
      (blkAt r i).valid = true ∧
      (blkAt r i).tag = t ∧
      (blkAt r i).address = a ∧
      (blkAt r i).dirty = (blkAt s i).dirty ∧
      (∀ j < s.length, j ≠ i →
        (blkAt r j).tag = (blkAt s j).tag ∧
        (blkAt r j).address = (blkAt s j).address ∧
        (blkAt r j).valid = (blkAt s j).valid ∧
        (blkAt r j).dirty = (blkAt s j).dirty) ∧
      r = updateLru (modifyAt s i fun b =>
        { b with address := a, tag := t, valid := true }) t := by
  have hfw : firstIdxWhere (fun b => !b.valid) s = some i :=
    firstIdxWhere_eq_some _ s i hi (by simp [hinv])
      (fun j hj => by simp [hfirst j hj])
  refine ⟨updateLru (modifyAt s i fun b =>
      { b with address := a, tag := t, valid := true }) t,
    by simp [installSet, hfw], ?_, ?_, ?_, ?_, ?_, ?_, rfl⟩
  · rw [updateLru_length, modifyAt_length]
  · rw [(updateLru_fields _ t i).2.2.1, blkAt_modifyAt, if_pos ⟨rfl, hi⟩]
  · rw [(updateLru_fields _ t i).1, blkAt_modifyAt, if_pos ⟨rfl, hi⟩]
  · rw [(updateLru_fields _ t i).2.1, blkAt_modifyAt, if_pos ⟨rfl, hi⟩]
  · rw [(updateLru_fields _ t i).2.2.2, blkAt_modifyAt, if_pos ⟨rfl, hi⟩]
  · intro j hj hne
    refine ⟨?_, ?_, ?_, ?_⟩
    · rw [(updateLru_fields _ t j).1, blkAt_modifyAt, if_neg (by tauto)]
    · rw [(updateLru_fields _ t j).2.1, blkAt_modifyAt, if_neg (by tauto)]
    · rw [(updateLru_fields _ t j).2.2.1, blkAt_modifyAt, if_neg (by tauto)]
    · rw [(updateLru_fields _ t j).2.2.2, blkAt_modifyAt, if_neg (by tauto)]

/-- Witness for C6 (amended) at a concrete input: installing tag 3 /
address 99 into the fresh two-slot set populates slot 0 with the given
tag and address, valid, and a clean dirty bit (the slot was clean). -/
theorem claim6_amended_install_semantics_witness :
    (installSet (initSet 2) 3 99).map
      (fun r => ((blkAt r 0).valid, (blkAt r 0).tag, (blkAt r 0).address,
        (blkAt r 0).dirty)) = some (true, 3, 99, false) := by
  obtain ⟨r, h1, _, hv, ht, ha, hd, _, _⟩ :=
    claim6_amended_install_semantics (initSet 2) 3 99 0
      (by decide) (by decide) (by decide)
  rw [h1, Option.map_some', hv, ht, ha, hd]
  decide

theorem getD_set_self_of_lt {α : Type} (l : List α) (i : Nat) (x d : α)
    (h : i < l.length) : (l.set i x).getD i d = x := by
  induction l generalizing i with
  | nil => simp at h
  | cons b rest ih =>
    cases i with
    | zero => rfl
    | succ n => exact ih n (by simpa using h)

theorem getD_set_self_of_le {α : Type} (l : List α) (i : Nat) (x d : α)
    (h : l.length ≤ i) : (l.set i x).getD i d = l.getD i d := by
  induction l generalizing i with
  | nil => rfl
  | cons b rest ih =>
    cases i with
    | zero => simp at h
    | succ n => exact ih n (by simpa using h)

theorem getD_set_ne {α : Type} (l : List α) (i j : Nat) (x d : α)
    (h : j ≠ i) : (l.set i x).getD j d = l.getD j d := by
  induction l generalizing i j with
  | nil => rfl
  | cons b rest ih =>
    cases i with
    | zero =>
      cases j with
      | zero => exact absurd rfl h
      | succ jj => rfl
    | succ n =>
      cases j with
      | zero => rfl
      | succ jj => exact ih n jj (by omega)

theorem getSet_setSet (c : Cache) (i j : Nat) (s : List Block) :
    (c.setSet i s).getSet j =
      if j = i ∧ i < c.cache.length then s else c.getSet j := by
  unfold Cache.setSet Cache.getSet
  by_cases h1 : j = i ∧ i < c.cache.length
  · obtain ⟨rfl, h2⟩ := h1
    rw [if_pos ⟨rfl, h2⟩]
    exact getD_set_self_of_lt c.cache j s [] h2
  · rw [if_neg h1]
    by_cases hj : j = i
    · subst hj
      have h2 : c.cache.length ≤ j := by
        rcases Nat.lt_or_ge j c.cache.length with h | h
        · exact absurd ⟨rfl, h⟩ h1
        · exact h
      exact getD_set_self_of_le c.cache j s [] h2
    · exact getD_set_ne c.cache i j s [] hj

theorem getD_replicate {α : Type} (n i : Nat) (x d : α) (h : i < n) :
    (List.replicate n x).getD i d = x := by
  induction n generalizing i with
  | zero => simp at h
  | succ m ih =>
    cases i with
    | zero => rfl
    | succ j => exact ih j (by omega)

theorem map_lru_modifyAt (s : List Block) (i : Nat) (f : Block → Block)
    (h : ∀ b, (f b).lru = b.lru) :
    (modifyAt s i f).map Block.lru = s.map Block.lru := by
  induction s generalizing i with
  | nil => rfl
  | cons b rest ih =>
    cases i with
    | zero => simp [modifyAt, h b]
    | succ n => simp [modifyAt, ih n]

theorem get_map_lru (s : List Block) (j : Nat)
    (hj : j < (s.map Block.lru).length) :
    (s.map Block.lru).get ⟨j, hj⟩ = (blkAt s j).lru := by
  induction s generalizing j with
  | nil => simp at hj
  | cons b rest ih =>
    cases j with
    | zero => rfl
    | succ n => exact ih n (by simpa using hj)

theorem updateLru_ranks_perm (s : List Block) (t : Nat)
    (h : (s.map Block.lru).Perm (List.range s.length)) :
    ((updateLru s t).map Block.lru).Perm (List.range s.length) := by
  by_cases hs : s = []
  · subst hs
    exact h
  · have hm : lastTagIdx s t < s.length := lastTagIdx_lt s t hs
    have hnodup : (s.map Block.lru).Nodup :=
      h.nodup_iff.mpr (List.nodup_range s.length)
    have hthr_lt : (blkAt s (lastTagIdx s t)).lru < s.length := by
      have hmem : (blkAt s (lastTagIdx s t)).lru ∈ s.map Block.lru := by
        rw [blkAt_eq_getElem s _ hm]
        exact List.mem_map_of_mem _ (List.getElem_mem hm)
      simpa [List.mem_range] using h.mem_iff.mp hmem
    have hstep : (updateLru s t).map Block.lru =
        (s.map Block.lru).map (fun v =>
          if v = (blkAt s (lastTagIdx s t)).lru then 0
          else if v < (blkAt s (lastTagIdx s t)).lru then v + 1 else v) := by
      apply List.ext_getElem
      · simp [updateLru_length]
      · intro j h1 h2
        rw [List.length_map, updateLru_length] at h1
        rw [List.getElem_map, List.getElem_map, List.getElem_map,
          ← blkAt_eq_getElem (updateLru s t) j (by rw [updateLru_length]; exact h1),
          ← blkAt_eq_getElem s j h1,
          blkAt_updateLru s t j h1]
        by_cases hjm : j = lastTagIdx s t
        · subst hjm
          rw [if_pos rfl, if_pos rfl]
        · have hne : (blkAt s j).lru ≠ (blkAt s (lastTagIdx s t)).lru := by
            intro hcontra
            apply hjm
            have h1m : j < (s.map Block.lru).length := by simpa using h1
            have h2m : lastTagIdx s t < (s.map Block.lru).length := by
              simpa using hm
            have hget : (s.map Block.lru).get ⟨j, h1m⟩ =
                (s.map Block.lru).get ⟨lastTagIdx s t, h2m⟩ := by
              rw [get_map_lru s j h1m, get_map_lru s _ h2m]
              exact hcontra
            have := (hnodup.get_inj_iff).mp hget
            simpa using this
          rw [if_neg hjm, if_neg hne]
          by_cases hlt : (blkAt s j).lru < (blkAt s (lastTagIdx s t)).lru
          · rw [if_pos hlt, if_pos hlt]
          · rw [if_neg hlt, if_neg hlt]
    rw [hstep]
    refine (h.map _).trans ?_
    have hnd1 : ((List.range s.length).map (fun v =>
        if v = (blkAt s (lastTagIdx s t)).lru then 0
        else if v < (blkAt s (lastTagIdx s t)).lru then v + 1 else v)).Nodup := by
      apply List.Nodup.map_on ?_ (List.nodup_range _)
      intro v hv w hw hf
      simp only [List.mem_range] at hv hw
      split_ifs at hf <;> omega
    apply (List.perm_ext_iff_of_nodup hnd1 (List.nodup_range _)).mpr
    intro x
    simp only [List.mem_map, List.mem_range]
    constructor
    · rintro ⟨v, hv, rfl⟩
      split_ifs <;> omega
    · intro hx
      by_cases hx0 : x = 0
      · refine ⟨(blkAt s (lastTagIdx s t)).lru, hthr_lt, ?_⟩
        rw [if_pos rfl, hx0]
      · by_cases hxthr : x ≤ (blkAt s (lastTagIdx s t)).lru
        · refine ⟨x - 1, by omega, ?_⟩
          rw [if_neg (by omega), if_pos (by omega)]
          omega
        · refine ⟨x, hx, ?_⟩
          rw [if_neg (by omega), if_neg (by omega)]

theorem inv9_setSet (c : Cache) (index : Nat) (s2 : List Block)
    (hinv : ∀ i < c.cache.length, (c.getSet i).length = c.assoc ∧
      ((c.getSet i).map Block.lru).Perm (List.range c.assoc) ∧
      ((c.getSet i).map Block.lru).Nodup)
    (hlen : index < c.cache.length → s2.length = c.assoc)
    (hperm : index < c.cache.length →
      (s2.map Block.lru).Perm (List.range c.assoc)) :
    ∀ i < (c.setSet index s2).cache.length,
      ((c.setSet index s2).getSet i).length = (c.setSet index s2).assoc ∧
      (((c.setSet index s2).getSet i).map Block.lru).Perm
        (List.range (c.setSet index s2).assoc) ∧
      (((c.setSet index s2).getSet i).map Block.lru).Nodup := by
  intro i hi
  have hlen2 : (c.setSet index s2).cache.length = c.cache.length := by
    simp [Cache.setSet]
  rw [show (c.setSet index s2).assoc = c.assoc from rfl, getSet_setSet]
  by_cases hcase : i = index ∧ index < c.cache.length
  · rw [if_pos hcase]
    exact ⟨hlen hcase.2, hperm hcase.2,
      (hperm hcase.2).nodup_iff.mpr (List.nodup_range _)⟩
  · rw [if_neg hcase]
    apply hinv i
    rwa [hlen2] at hi

theorem map_lru_initSet (a : Nat) : (initSet a).map Block.lru = List.range a := by
  unfold initSet
  rw [List.map_map]
  have : (Block.lru ∘ fun j => { Block.new with lru := j }) = fun j => j := by
    funext j
    rfl
  rw [this, List.map_id']

/-- C9: for every cache level constructed with nonzero capacity, in every
state reachable through any sequence of `read`, `write`, `install` and
`evict_lru_block` operations, every set still has exactly `assoc` slots
and its recency ranks form a permutation of `{0, ..., assoc-1}`; in
particular all ranks are pairwise distinct at all times. -/
theorem claim9_lru_permutation (c : Cache) (h : CacheReachable c) :
    ∀ i < c.cache.length, (c.getSet i).length = c.assoc ∧
      ((c.getSet i).map Block.lru).Perm (List.range c.assoc) ∧
      ((c.getSet i).map Block.lru).Nodup := by
  induction h with
  | init cs a bs hcs =>
    intro i hi
    simp only [Cache.new, if_neg hcs] at hi ⊢
    rw [List.length_replicate] at hi
    unfold Cache.getSet
    simp only []
    rw [getD_replicate _ i _ [] hi, map_lru_initSet]
    refine ⟨by simp [initSet], List.Perm.refl _, List.nodup_range a⟩
  | read c index tag hr ih =>
    by_cases hhit : readHitB (c.getSet index) tag
    · have hres : (c.read index tag).2 =
          c.setSet index (updateLru (c.getSet index) tag) := by
        simp [Cache.read, hhit]
      rw [hres]
      apply inv9_setSet c index _ ih
      · intro hidx
        rw [updateLru_length]
        exact (ih index hidx).1
      · intro hidx
        have h1 := (ih index hidx).1
        have h2 := (ih index hidx).2.1
        have := updateLru_ranks_perm (c.getSet index) tag (by rwa [h1])
        rwa [h1] at this
    · have hres : (c.read index tag).2 = c := by
        simp [Cache.read, hhit]
      rw [hres]
      exact ih
  | write c index tag hr ih =>
    cases hfw : firstIdxWhere (fun b => b.tag == tag) (c.getSet index) with
    | none =>
      have hres : (c.write index tag).2 = c := by
        simp [Cache.write, hfw]
      rw [hres]
      exact ih
    | some i0 =>
      have hres : (c.write index tag).2 = c.setSet index
          (modifyAt (updateLru (modifyAt (c.getSet index) i0
            fun b => { b with valid := true }) tag) i0
            fun b => { b with dirty := true }) := by
        simp [Cache.write, hfw]
      rw [hres]
      apply inv9_setSet c index _ ih
      · intro hidx
        rw [modifyAt_length, updateLru_length, modifyAt_length]
        exact (ih index hidx).1
      · intro hidx
        have h1 := (ih index hidx).1
        have h2 := (ih index hidx).2.1
        rw [map_lru_modifyAt _ i0 (fun b => { b with dirty := true })
          (fun b => rfl)]
        have hp := updateLru_ranks_perm
          (modifyAt (c.getSet index) i0 fun b => { b with valid := true }) tag
          (by rw [map_lru_modifyAt (c.getSet index) i0
                (fun b => { b with valid := true }) (fun b => rfl),
                modifyAt_length, h1]
              exact h2)
        rwa [modifyAt_length, h1] at hp
  | install c c2 index tag address hr hi ih =>
    rw [Cache.install, Option.map_eq_some'] at hi
    obtain ⟨r, hr2, rfl⟩ := hi
    rw [installSet] at hr2
    cases hfw : firstIdxWhere (fun b => !b.valid) (c.getSet index) with
    | none => rw [hfw] at hr2; cases hr2
    | some i0 =>
      rw [hfw] at hr2
      injection hr2 with hr2
      subst hr2
      apply inv9_setSet c index _ ih
      · intro hidx
        rw [updateLru_length, modifyAt_length]
        exact (ih index hidx).1
      · intro hidx
        have h1 := (ih index hidx).1
        have h2 := (ih index hidx).2.1
        have hp := updateLru_ranks_perm
          (modifyAt (c.getSet index) i0
            fun b => { b with address := address, tag := tag, valid := true }) tag
          (by rw [map_lru_modifyAt (c.getSet index) i0
                (fun b => { b with address := address, tag := tag, valid := true })
                (fun b => rfl),
                modifyAt_length, h1]
              exact h2)
        rwa [modifyAt_length, h1] at hp
  | evict c index hr ih =>
    have hres : (c.evictLruBlock index).2 = c.setSet index
        (modifyAt (c.getSet index) (evictIdx (c.getSet index))
          fun b => { b with valid := false, dirty := false }) := rfl
    rw [hres]
    apply inv9_setSet c index _ ih
    · intro hidx
      rw [modifyAt_length]
      exact (ih index hidx).1
    · intro hidx
      rw [map_lru_modifyAt _ (evictIdx (c.getSet index))
        (fun b => { b with valid := false, dirty := false }) (fun b => rfl)]
      exact (ih index hidx).2.1

/-- Witness for C9 at a concrete input: in the freshly constructed cache
`Cache.new 64 2 32` (one set, two ways), set 0's recency ranks are a
permutation of `{0, 1}` and pairwise distinct. -/
theorem claim9_lru_permutation_witness :
    (((Cache.new 64 2 32).getSet 0).map Block.lru).Perm (List.range 2) ∧
    (((Cache.new 64 2 32).getSet 0).map Block.lru).Nodup := by
  have h := claim9_lru_permutation (Cache.new 64 2 32)
    (CacheReachable.init 64 2 32 (by decide)) 0 (by decide)
  exact ⟨h.2.1, h.2.2⟩

theorem getD_of_length_le {α : Type} (l : List α) (i : Nat) (d : α)
    (h : l.length ≤ i) : l.getD i d = d := by
  induction l generalizing i with
  | nil => rfl
  | cons b rest ih =>
    cases i with
    | zero => simp at h
    | succ n => exact ih n (by simpa using h)

theorem inv10_setSet (c : Cache) (index : Nat) (s2 : List Block)
    (hinv : ∀ i j : Nat, (blkAt (c.getSet i) j).valid = false →
      (blkAt (c.getSet i) j).dirty = false)
    (hset : ∀ j : Nat, (blkAt s2 j).valid = false → (blkAt s2 j).dirty = false) :
    ∀ i j : Nat, (blkAt ((c.setSet index s2).getSet i) j).valid = false →
      (blkAt ((c.setSet index s2).getSet i) j).dirty = false := by
  intro i j
  rw [getSet_setSet]
  split
  · exact hset j
  · exact hinv i j

theorem cleanSet_updateLru (s : List Block) (t : Nat)
    (h : ∀ j, (blkAt s j).valid = false → (blkAt s j).dirty = false) :
    ∀ j, (blkAt (updateLru s t) j).valid = false →
      (blkAt (updateLru s t) j).dirty = false := by
  intro j hv
  have hf := updateLru_fields s t j
  rw [hf.2.2.2]
  exact h j (by rw [← hf.2.2.1]; exact hv)

theorem cleanSet_modifyAt_dirty (u : List Block) (i0 : Nat)
    (h : ∀ j, (blkAt u j).valid = false → (blkAt u j).dirty = false)
    (hvalid : i0 < u.length → (blkAt u i0).valid = true) :
    ∀ j, (blkAt (modifyAt u i0 fun b => { b with dirty := true }) j).valid
        = false →
      (blkAt (modifyAt u i0 fun b => { b with dirty := true }) j).dirty
        = false := by
  intro j hv
  rw [blkAt_modifyAt] at hv ⊢
  by_cases hc : j = i0 ∧ j < u.length
  · rw [if_pos hc] at hv
    exfalso
    have hval : (blkAt u i0).valid = true := hvalid (hc.1 ▸ hc.2)
    have hv2 : (blkAt u j).valid = false := hv
    rw [hc.1, hval] at hv2
    cases hv2
  · rw [if_neg hc] at hv ⊢
    exact h j hv

theorem cleanSet_writeResult (s : List Block) (i0 t : Nat)
    (h : ∀ j, (blkAt s j).valid = false → (blkAt s j).dirty = false) :
    ∀ j, (blkAt (modifyAt (updateLru (modifyAt s i0
        fun b => { b with valid := true }) t) i0
        fun b => { b with dirty := true }) j).valid = false →
      (blkAt (modifyAt (updateLru (modifyAt s i0
        fun b => { b with valid := true }) t) i0
        fun b => { b with dirty := true }) j).dirty = false := by
  apply cleanSet_modifyAt_dirty
  · apply cleanSet_updateLru
    intro j hv
    rw [blkAt_modifyAt] at hv ⊢
    by_cases hc : j = i0 ∧ j < s.length
    · rw [if_pos hc] at hv
      cases hv
    · rw [if_neg hc] at hv ⊢
      exact h j hv
  · intro hlen
    rw [updateLru_length, modifyAt_length] at hlen
    rw [(updateLru_fields _ t i0).2.2.1, blkAt_modifyAt, if_pos ⟨rfl, hlen⟩]

theorem cleanSet_installResult (s : List Block) (i0 tg a t : Nat)
    (h : ∀ j, (blkAt s j).valid = false → (blkAt s j).dirty = false) :
    ∀ j, (blkAt (updateLru (modifyAt s i0
        fun b => { b with address := a, tag := tg, valid := true }) t) j).valid
        = false →
      (blkAt (updateLru (modifyAt s i0
        fun b => { b with address := a, tag := tg, valid := true }) t) j).dirty
        = false := by
  apply cleanSet_updateLru
  intro j hv
  rw [blkAt_modifyAt] at hv ⊢
  by_cases hc : j = i0 ∧ j < s.length
  · rw [if_pos hc] at hv
    cases hv
  · rw [if_neg hc] at hv ⊢
    exact h j hv

theorem cleanSet_evictResult (s : List Block) (v : Nat)
    (h : ∀ j, (blkAt s j).valid = false → (blkAt s j).dirty = false) :
    ∀ j, (blkAt (modifyAt s v
        fun b => { b with valid := false, dirty := false }) j).valid = false →
      (blkAt (modifyAt s v
        fun b => { b with valid := false, dirty := false }) j).dirty = false := by
  intro j hv
  rw [blkAt_modifyAt] at hv ⊢
  by_cases hc : j = v ∧ j < s.length
  · rw [if_pos hc]
  · rw [if_neg hc] at hv ⊢
    exact h j hv

theorem cleanSet_init (a : Nat) : ∀ j, (blkAt (initSet a) j).dirty = false := by
  intro j
  by_cases hj : j < a
  · rw [blkAt_eq_getElem _ j (by simpa [initSet] using hj)]
    simp [initSet]
    rfl
  · rw [blkAt_of_length_le _ j (by simpa [initSet] using Nat.le_of_not_lt hj)]
    rfl

/-- C10: in every reachable cache state, a slot whose valid bit is false
has its dirty bit false: blocks start clean, eviction clears `dirty` when
invalidating, and `write` sets `valid` whenever it sets `dirty`; hence
`install` — which never writes the dirty field — can never resurrect a
stale dirty bit. -/
theorem claim10_invalid_implies_clean (c : Cache) (h : CacheReachable c) :
    ∀ i j : Nat, (blkAt (c.getSet i) j).valid = false →
      (blkAt (c.getSet i) j).dirty = false := by
  induction h with
  | init cs a bs hcs =>
    intro i j _
    show (blkAt ((Cache.new cs a bs).getSet i) j).dirty = false
    simp only [Cache.new, if_neg hcs]
    unfold Cache.getSet
    simp only []
    by_cases hi : i < cs / (a * bs)
    · rw [getD_replicate _ i _ []
        (by simpa [List.length_replicate] using hi)]
      exact cleanSet_init a j
    · rw [getD_of_length_le _ i []
        (by simpa [List.length_replicate] using Nat.le_of_not_lt hi)]
      rfl
  | read c index tag hr ih =>
    by_cases hhit : readHitB (c.getSet index) tag
    · have hres : (c.read index tag).2 =
          c.setSet index (updateLru (c.getSet index) tag) := by
        simp [Cache.read, hhit]
      rw [hres]
      exact inv10_setSet c index _ ih
        (cleanSet_updateLru (c.getSet index) tag (fun j => ih index j))
    · have hres : (c.read index tag).2 = c := by
        simp [Cache.read, hhit]
      rw [hres]
      exact ih
  | write c index tag hr ih =>
    cases hfw : firstIdxWhere (fun b => b.tag == tag) (c.getSet index) with
    | none =>
      have hres : (c.write index tag).2 = c := by
        simp [Cache.write, hfw]
      rw [hres]
      exact ih
    | some i0 =>
      have hres : (c.write index tag).2 = c.setSet index
          (modifyAt (updateLru (modifyAt (c.getSet index) i0
            fun b => { b with valid := true }) tag) i0
            fun b => { b with dirty := true }) := by
        simp [Cache.write, hfw]
      rw [hres]
      exact inv10_setSet c index _ ih
        (cleanSet_writeResult (c.getSet index) i0 tag (fun j => ih index j))
  | install c c2 index tag address hr hi ih =>
    rw [Cache.install, Option.map_eq_some'] at hi
    obtain ⟨r, hr2, rfl⟩ := hi
    rw [installSet] at hr2
    cases hfw : firstIdxWhere (fun b => !b.valid) (c.getSet index) with
    | none => rw [hfw] at hr2; cases hr2
    | some i0 =>
      rw [hfw] at hr2
      injection hr2 with hr2
      subst hr2
      exact inv10_setSet c index _ ih
        (cleanSet_installResult (c.getSet index) i0 tag address tag
          (fun j => ih index j))
  | evict c index hr ih =>
    have hres : (c.evictLruBlock index).2 = c.setSet index
        (modifyAt (c.getSet index) (evictIdx (c.getSet index))
          fun b => { b with valid := false, dirty := false }) := rfl
    rw [hres]
    exact inv10_setSet c index _ ih
      (cleanSet_evictResult (c.getSet index) _ (fun j => ih index j))

/-- Witness for C10 at a concrete input: in the freshly constructed cache
`Cache.new 64 1 32`, slot 0 of set 0 is invalid, and the theorem yields
that its dirty bit is clear. -/
theorem claim10_invalid_implies_clean_witness :
    (blkAt ((Cache.new 64 1 32).getSet 0) 0).dirty = false :=
  claim10_invalid_implies_clean (Cache.new 64 1 32)
    (CacheReachable.init 64 1 32 (by decide)) 0 0 (by decide)

/-! ## Well-formedness and controller lemmas -/

theorem WF_getSet_length (c : Cache) (hwf : WFCache c) (index : Nat)
    (hidx : index < c.cache.length) : (c.getSet index).length = c.assoc := by
  apply hwf.2.2.2
  have hg : c.cache.getD index [] = c.cache[index] := by
    rw [List.getD_eq_getElem?_getD, List.getElem?_eq_getElem hidx]
    rfl
  unfold Cache.getSet
  rw [hg]
  exact List.getElem_mem hidx

theorem WFCache_setSet (c : Cache) (index : Nat) (s2 : List Block)
    (hwf : WFCache c) (hlen : s2.length = c.assoc) :
    WFCache (c.setSet index s2) := by
  obtain ⟨h1, h2, h3, h4⟩ := hwf
  refine ⟨h1, by simpa [Cache.setSet] using h2, h3, ?_⟩
  intro s hs
  simp only [Cache.setSet] at hs
  rcases List.mem_or_eq_of_mem_set hs with h | h
  · exact h4 s h
  · rw [h]
    exact hlen

theorem length_cache_setSet (c : Cache) (i : Nat) (s : List Block) :
    (c.setSet i s).cache.length = c.cache.length := by
  simp [Cache.setSet]

theorem read_result_cases (c : Cache) (index tag : Nat) :
    (c.read index tag).2 = c ∨
    (c.read index tag).2 = c.setSet index (updateLru (c.getSet index) tag) := by
  by_cases hhit : readHitB (c.getSet index) tag
  · right; simp [Cache.read, hhit]
  · left; simp [Cache.read, hhit]

theorem write_result_cases (c : Cache) (index tag : Nat) :
    (c.write index tag).2 = c ∨
    ∃ i0, (c.write index tag).2 = c.setSet index
      (modifyAt (updateLru (modifyAt (c.getSet index) i0
        fun b => { b with valid := true }) tag) i0
        fun b => { b with dirty := true }) := by
  cases hfw : firstIdxWhere (fun b => b.tag == tag) (c.getSet index) with
  | none => left; simp [Cache.write, hfw]
  | some i0 => right; exact ⟨i0, by simp [Cache.write, hfw]⟩

theorem evict_result_eq (c : Cache) (index : Nat) :
    (c.evictLruBlock index).2 = c.setSet index
      (modifyAt (c.getSet index) (evictIdx (c.getSet index))
        fun b => { b with valid := false, dirty := false }) := rfl

theorem install_result_eq (c c2 : Cache) (index tag address : Nat)
    (h : c.install index tag address = some c2) :
    ∃ i0, c2 = c.setSet index
      (updateLru (modifyAt (c.getSet index) i0
        fun b => { b with address := address, tag := tag, valid := true }) tag) := by
  rw [Cache.install, Option.map_eq_some'] at h
  obtain ⟨r, hr2, hc2⟩ := h
  rw [installSet] at hr2
  cases hfw : firstIdxWhere (fun b => !b.valid) (c.getSet index) with
  | none => rw [hfw] at hr2; cases hr2
  | some i0 =>
    rw [hfw] at hr2
    injection hr2 with hr2
    subst hr2
    exact ⟨i0, hc2.symm⟩

theorem WFCache_read (c : Cache) (index tag : Nat) (hwf : WFCache c)
    (hidx : index < c.cache.length) : WFCache (c.read index tag).2 := by
  rcases read_result_cases c index tag with h | h
  · rw [h]; exact hwf
  · rw [h]
    exact WFCache_setSet c index _ hwf
      (by rw [updateLru_length, WF_getSet_length c hwf index hidx])

theorem WFCache_write (c : Cache) (index tag : Nat) (hwf : WFCache c)
    (hidx : index < c.cache.length) : WFCache (c.write index tag).2 := by
  rcases write_result_cases c index tag with h | ⟨i0, h⟩
  · rw [h]; exact hwf
  · rw [h]
    exact WFCache_setSet c index _ hwf
      (by rw [modifyAt_length, updateLru_length, modifyAt_length,
        WF_getSet_length c hwf index hidx])

theorem WFCache_evict (c : Cache) (index : Nat) (hwf : WFCache c)
    (hidx : index < c.cache.length) : WFCache (c.evictLruBlock index).2 := by
  rw [evict_result_eq]
  exact WFCache_setSet c index _ hwf
    (by rw [modifyAt_length, WF_getSet_length c hwf index hidx])

theorem WFCache_install (c c2 : Cache) (index tag address : Nat)
    (h : c.install index tag address = some c2) (hwf : WFCache c)
    (hidx : index < c.cache.length) : WFCache c2 := by
  obtain ⟨i0, h⟩ := install_result_eq c c2 index tag address h
  rw [h]
  exact WFCache_setSet c index _ hwf
    (by rw [updateLru_length, modifyAt_length, WF_getSet_length c hwf index hidx])

theorem firstIdxWhere_isSome_of_not_all (s : List Block)
    (h : (s.all fun b => b.valid) = false) :
    ∃ i, firstIdxWhere (fun b => !b.valid) s = some i := by
  cases hfw : firstIdxWhere (fun b => !b.valid) s with
  | some i => exact ⟨i, rfl⟩
  | none =>
    exfalso
    have hall := (firstIdxWhere_eq_none_iff _ _).mp hfw
    have hT : (s.all fun b => b.valid) = true := by
      rw [List.all_eq_true]
      intro b hb
      simpa using hall b hb
    rw [hT] at h
    cases h

theorem install_succeeds (c : Cache) (index tag address : Nat)
    (hfull : c.setIsFull index = false) :
    ∃ c2, c.install index tag address = some c2 := by
  unfold Cache.setIsFull at hfull
  obtain ⟨i, hi⟩ := firstIdxWhere_isSome_of_not_all _ hfull
  refine ⟨c.setSet index (updateLru (modifyAt (c.getSet index) i
    fun b => { b with address := address, tag := tag, valid := true }) tag), ?_⟩
  simp [Cache.install, installSet, hi]

theorem setIsFull_after_evict (c : Cache) (index : Nat)
    (hlen : 0 < (c.getSet index).length) :
    (c.evictLruBlock index).2.setIsFull index = false := by
  have hidx : index < c.cache.length := by
    by_contra hcon
    rw [Cache.getSet, getD_of_length_le _ _ _ (by omega)] at hlen
    simp at hlen
  have hne : c.getSet index ≠ [] := by
    intro h
    rw [h] at hlen
    simp at hlen
  obtain ⟨hv, _, _⟩ := evictIdx_spec (c.getSet index) hne
  have hres : (c.evictLruBlock index).2.getSet index =
      modifyAt (c.getSet index) (evictIdx (c.getSet index))
        (fun b => { b with valid := false, dirty := false }) := by
    rw [evict_result_eq, getSet_setSet, if_pos ⟨rfl, hidx⟩]
  unfold Cache.setIsFull
  rw [hres, List.all_eq_false]
  refine ⟨blkAt (modifyAt (c.getSet index) (evictIdx (c.getSet index))
    (fun b => { b with valid := false, dirty := false }))
      (evictIdx (c.getSet index)), ?_, ?_⟩
  · exact blkAt_mem _ _ (by rw [modifyAt_length]; exact hv)
  · rw [blkAt_modifyAt, if_pos ⟨rfl, hv⟩]
    simp

theorem setIsFull_false_of_invalid (c : Cache) (index j : Nat)
    (hj : j < (c.getSet index).length)
    (hinv : (blkAt (c.getSet index) j).valid = false) :
    c.setIsFull index = false := by
  unfold Cache.setIsFull
  rw [List.all_eq_false]
  exact ⟨blkAt (c.getSet index) j, blkAt_mem _ _ hj, by rw [hinv]; simp⟩

theorem write_miss_unchanged (c : Cache) (index tag : Nat)
    (h : (c.write index tag).1 = HitOrMiss.MISS) : (c.write index tag).2 = c := by
  cases hfw : firstIdxWhere (fun b => b.tag == tag) (c.getSet index) with
  | none => simp [Cache.write, hfw]
  | some i0 => simp [Cache.write, hfw] at h

theorem getSet_write_ne (c : Cache) (index tag j : Nat) (hne : j ≠ index) :
    ((c.write index tag).2).getSet j = c.getSet j := by
  rcases write_result_cases c index tag with hr | ⟨i0, hr⟩
  · rw [hr]
  · rw [hr, getSet_setSet, if_neg (by tauto)]

theorem getSet_evict_ne (c : Cache) (index j : Nat) (hne : j ≠ index) :
    ((c.evictLruBlock index).2).getSet j = c.getSet j := by
  rw [evict_result_eq, getSet_setSet, if_neg (by tauto)]

theorem getSet_install_ne (c c2 : Cache) (index tag address j : Nat)
    (h : c.install index tag address = some c2) (hne : j ≠ index) :
    c2.getSet j = c.getSet j := by
  obtain ⟨i0, rfl⟩ := install_result_eq c c2 index tag address h
  rw [getSet_setSet, if_neg (by tauto)]

theorem cache_size_read (c : Cache) (index tag : Nat) :
    ((c.read index tag).2).cache_size = c.cache_size := by
  rcases read_result_cases c index tag with h | h
  · rw [h]
  · rw [h]; rfl

theorem cache_size_write (c : Cache) (index tag : Nat) :
    ((c.write index tag).2).cache_size = c.cache_size := by
  rcases write_result_cases c index tag with h | ⟨i0, h⟩
  · rw [h]
  · rw [h]; rfl

theorem cache_size_evict (c : Cache) (index : Nat) :
    ((c.evictLruBlock index).2).cache_size = c.cache_size := rfl

theorem cache_size_install (c c2 : Cache) (index tag address : Nat)
    (h : c.install index tag address = some c2) :
    c2.cache_size = c.cache_size := by
  obtain ⟨i0, rfl⟩ := install_result_eq c c2 index tag address h
  rfl

/-- C7: whenever a dirty L1 victim is evicted, the controller's write-back
branch (`main.rs` lines 122-184, embedded as `handleL1WriteBack`) without
an L2 increments `total_memory_traffic` and `l1_write_backs` exactly once
each and changes nothing else; with an L2 present it issues exactly one
`L2.write` at the victim address's L2 coordinates (every L2 set other than
that one is untouched) and increments `l1_write_backs` and `l2_writes`
exactly once each, regardless of whether that L2 write hits or misses. -/
theorem claim7_writeback_accounting (er : EvictionResult) (l2 : Cache)
    (stats : Statistics) (address : Nat)
    (hdirty : er.evicted_block_was_dirty = true) (hwf : WFL2 l2) :
    (l2.cache_size = 0 →
      handleL1WriteBack er l2 stats address = some (l2,
        { stats with
          l1_write_backs := stats.l1_write_backs + 1,
          total_memory_traffic := stats.total_memory_traffic + 1 })) ∧
    (l2.cache_size ≠ 0 →
      ∃ l2b stats2,
        handleL1WriteBack er l2 stats address = some (l2b, stats2) ∧
        stats2.l1_write_backs = stats.l1_write_backs + 1 ∧
        stats2.l2_writes = stats.l2_writes + 1 ∧
        stats2.l1_reads = stats.l1_reads ∧
        stats2.l1_writes = stats.l1_writes ∧
        stats2.l1_read_misses = stats.l1_read_misses ∧
        stats2.l1_write_misses = stats.l1_write_misses ∧
        (∀ j, j ≠ l2.indexOf er.evicted_block_address →
          l2b.getSet j = l2.getSet j)) := by
  constructor
  · intro h0
    simp [handleL1WriteBack, h0, hdirty]
  · intro hne
    have hwfc : WFCache l2 := by
      rcases hwf with h | h
      · exact absurd h hne
      · exact h
    have hIdx : l2.indexOf er.evicted_block_address < l2.cache.length := by
      have hp : l2.indexOf er.evicted_block_address < 2 ^ l2.index_bits :=
        Nat.mod_lt _ (by positivity)
      rw [hwfc.2.1, hwfc.2.2.1]
      exact hp
    by_cases hwmiss : (l2.write (l2.indexOf er.evicted_block_address)
        (l2.tagOf er.evicted_block_address)).1 = HitOrMiss.MISS
    · have hl2a : (l2.write (l2.indexOf er.evicted_block_address)
          (l2.tagOf er.evicted_block_address)).2 = l2 :=
        write_miss_unchanged _ _ _ hwmiss
      by_cases hfull : l2.setIsFull (l2.indexOf er.evicted_block_address)
      · have hlen0 :
            0 < (l2.getSet (l2.indexOf er.evicted_block_address)).length := by
          rw [WF_getSet_length l2 hwfc _ hIdx]
          exact hwfc.1
        have hnotfull := setIsFull_after_evict l2
          (l2.indexOf er.evicted_block_address) hlen0
        obtain ⟨l2b, hinst⟩ := install_succeeds
          ((l2.evictLruBlock (l2.indexOf er.evicted_block_address)).2)
          (l2.indexOf er.evicted_block_address)
          (l2.tagOf er.evicted_block_address) address hnotfull
        have huntouched : ∀ j, j ≠ l2.indexOf er.evicted_block_address →
            l2b.getSet j = l2.getSet j := by
          intro j hj
          rw [getSet_install_ne _ _ _ _ _ _ hinst hj, getSet_evict_ne _ _ _ hj]
        by_cases hd2 : (l2.evictLruBlock
            (l2.indexOf er.evicted_block_address)).1.evicted_block_was_dirty
        · refine ⟨l2b,
            { stats with
              l2_write_misses := stats.l2_write_misses + 1,
              l2_write_backs := stats.l2_write_backs + 1,
              total_memory_traffic := stats.total_memory_traffic + 1 + 1,
              l1_write_backs := stats.l1_write_backs + 1,
              l2_writes := stats.l2_writes + 1 },
            ?_, rfl, rfl, rfl, rfl, rfl, rfl, huntouched⟩
          simp [handleL1WriteBack, hdirty, hne, hwmiss, hl2a, hfull,
            hd2, hinst]
        · refine ⟨l2b,
            { stats with
              l2_write_misses := stats.l2_write_misses + 1,
              total_memory_traffic := stats.total_memory_traffic + 1,
              l1_write_backs := stats.l1_write_backs + 1,
              l2_writes := stats.l2_writes + 1 },
            ?_, rfl, rfl, rfl, rfl, rfl, rfl, huntouched⟩
          simp only [Bool.not_eq_true] at hd2
          simp [handleL1WriteBack, hdirty, hne, hwmiss, hl2a, hfull,
            hd2, hinst]
      · obtain ⟨l2b, hinst⟩ := install_succeeds l2
          (l2.indexOf er.evicted_block_address)
          (l2.tagOf er.evicted_block_address) address
          (by simpa using hfull)
        have huntouched : ∀ j, j ≠ l2.indexOf er.evicted_block_address →
            l2b.getSet j = l2.getSet j := by
          intro j hj
          rw [getSet_install_ne _ _ _ _ _ _ hinst hj]
        refine ⟨l2b,
          { stats with
            l2_write_misses := stats.l2_write_misses + 1,
            total_memory_traffic := stats.total_memory_traffic + 1,
            l1_write_backs := stats.l1_write_backs + 1,
            l2_writes := stats.l2_writes + 1 },
          ?_, rfl, rfl, rfl, rfl, rfl, rfl, huntouched⟩
        simp [handleL1WriteBack, hdirty, hne, hwmiss, hl2a, hfull, hinst]
    · refine ⟨(l2.write (l2.indexOf er.evicted_block_address)
          (l2.tagOf er.evicted_block_address)).2,
        { stats with
          l1_write_backs := stats.l1_write_backs + 1,
          l2_writes := stats.l2_writes + 1 },
        ?_, rfl, rfl, rfl, rfl, rfl, rfl,
        fun j hj => getSet_write_ne l2 _ _ j hj⟩
      simp [handleL1WriteBack, hdirty, hne, hwmiss]

/-- Witness for C7 at a concrete input: a dirty victim with address 0
written back into the present, initially empty L2 `Cache.new 64 1 32`
records exactly one L1 write-back and one L2 write. -/
theorem claim7_writeback_accounting_witness :
    (handleL1WriteBack ⟨0, true⟩ (Cache.new 64 1 32) Statistics.new 5).map
      (fun p => (p.2.l1_write_backs, p.2.l2_writes)) = some (1, 1) := by
  obtain ⟨l2b, stats2, h1, h2, h3, _⟩ :=
    (claim7_writeback_accounting ⟨0, true⟩ (Cache.new 64 1 32) Statistics.new 5
      (by decide) (by unfold WFL2 WFCache; right; decide)).2 (by decide)
  rw [h1, Option.map_some', h2, h3]
  rfl

theorem read_miss_unchanged (c : Cache) (index tag : Nat)
    (h : (c.read index tag).1 = HitOrMiss.MISS) : (c.read index tag).2 = c := by
  by_cases hhit : readHitB (c.getSet index) tag
  · simp [Cache.read, hhit] at h
  · simp [Cache.read, hhit]

theorem length_cache_read (c : Cache) (index tag : Nat) :
    ((c.read index tag).2).cache.length = c.cache.length := by
  rcases read_result_cases c index tag with h | h
  · rw [h]
  · rw [h, length_cache_setSet]

theorem length_cache_write (c : Cache) (index tag : Nat) :
    ((c.write index tag).2).cache.length = c.cache.length := by
  rcases write_result_cases c index tag with h | ⟨i0, h⟩
  · rw [h]
  · rw [h, length_cache_setSet]

theorem length_cache_evict (c : Cache) (index : Nat) :
    ((c.evictLruBlock index).2).cache.length = c.cache.length := by
  rw [evict_result_eq, length_cache_setSet]

theorem length_cache_install (c c2 : Cache) (index tag address : Nat)
    (h : c.install index tag address = some c2) :
    c2.cache.length = c.cache.length := by
  obtain ⟨i0, rfl⟩ := install_result_eq c c2 index tag address h
  rw [length_cache_setSet]

theorem indexOf_lt_of_WF (c : Cache) (address : Nat) (hwf : WFCache c) :
    c.indexOf address < c.cache.length := by
  have hp : c.indexOf address < 2 ^ c.index_bits :=
    Nat.mod_lt _ (by positivity)
  rw [hwf.2.1, hwf.2.2.1]
  exact hp

theorem handleL1WriteBack_total (er : EvictionResult) (l2 : Cache)
    (stats : Statistics) (address : Nat) (hwf : WFL2 l2) :
    ∃ l2b stats2, handleL1WriteBack er l2 stats address = some (l2b, stats2) ∧
      WFL2 l2b ∧ l2b.cache_size = l2.cache_size ∧
      l2b.cache.length = l2.cache.length := by
  by_cases h0 : l2.cache_size = 0
  · by_cases hd : er.evicted_block_was_dirty
    · exact ⟨l2,
        { stats with
          l1_write_backs := stats.l1_write_backs + 1,
          total_memory_traffic := stats.total_memory_traffic + 1 },
        by simp [handleL1WriteBack, h0, hd], hwf, rfl, rfl⟩
    · refine ⟨l2, stats, ?_, hwf, rfl, rfl⟩
      simp only [Bool.not_eq_true] at hd
      simp [handleL1WriteBack, h0, hd]
  · have hwfc : WFCache l2 := by
      rcases hwf with h | h
      · exact absurd h h0
      · exact h
    by_cases hd : er.evicted_block_was_dirty
    · have hIdx : l2.indexOf er.evicted_block_address < l2.cache.length :=
        indexOf_lt_of_WF l2 _ hwfc
      by_cases hwmiss : (l2.write (l2.indexOf er.evicted_block_address)
          (l2.tagOf er.evicted_block_address)).1 = HitOrMiss.MISS
      · have hl2a : (l2.write (l2.indexOf er.evicted_block_address)
            (l2.tagOf er.evicted_block_address)).2 = l2 :=
          write_miss_unchanged _ _ _ hwmiss
        by_cases hfull : l2.setIsFull (l2.indexOf er.evicted_block_address)
        · have hlen0 :
              0 < (l2.getSet (l2.indexOf er.evicted_block_address)).length := by
            rw [WF_getSet_length l2 hwfc _ hIdx]
            exact hwfc.1
          have hnotfull := setIsFull_after_evict l2
            (l2.indexOf er.evicted_block_address) hlen0
          obtain ⟨l2b, hinst⟩ := install_succeeds
            ((l2.evictLruBlock (l2.indexOf er.evicted_block_address)).2)
            (l2.indexOf er.evicted_block_address)
            (l2.tagOf er.evicted_block_address) address hnotfull
          have hwfb : WFCache l2b :=
            WFCache_install _ _ _ _ _ hinst
              (WFCache_evict l2 _ hwfc hIdx)
              (by rw [length_cache_evict]; exact hIdx)
          have hsize : l2b.cache_size = l2.cache_size := by
            rw [cache_size_install _ _ _ _ _ hinst, cache_size_evict]
          have hlen : l2b.cache.length = l2.cache.length := by
            rw [length_cache_install _ _ _ _ _ hinst, length_cache_evict]
          by_cases hd2 : (l2.evictLruBlock
              (l2.indexOf er.evicted_block_address)).1.evicted_block_was_dirty
          · refine ⟨l2b,
              { stats with
                l2_write_misses := stats.l2_write_misses + 1,
                l2_write_backs := stats.l2_write_backs + 1,
                total_memory_traffic := stats.total_memory_traffic + 1 + 1,
                l1_write_backs := stats.l1_write_backs + 1,
                l2_writes := stats.l2_writes + 1 },
              ?_, Or.inr hwfb, hsize, hlen⟩
            simp [handleL1WriteBack, hd, h0, hwmiss, hl2a, hfull, hd2, hinst]
          · refine ⟨l2b,
              { stats with
                l2_write_misses := stats.l2_write_misses + 1,
                total_memory_traffic := stats.total_memory_traffic + 1,
                l1_write_backs := stats.l1_write_backs + 1,
                l2_writes := stats.l2_writes + 1 },
              ?_, Or.inr hwfb, hsize, hlen⟩
            simp only [Bool.not_eq_true] at hd2
            simp [handleL1WriteBack, hd, h0, hwmiss, hl2a, hfull, hd2, hinst]
        · obtain ⟨l2b, hinst⟩ := install_succeeds l2
            (l2.indexOf er.evicted_block_address)
            (l2.tagOf er.evicted_block_address) address
            (by simpa using hfull)
          refine ⟨l2b,
            { stats with
              l2_write_misses := stats.l2_write_misses + 1,
              total_memory_traffic := stats.total_memory_traffic + 1,
              l1_write_backs := stats.l1_write_backs + 1,
              l2_writes := stats.l2_writes + 1 },
            ?_, Or.inr (WFCache_install _ _ _ _ _ hinst hwfc hIdx),
            cache_size_install _ _ _ _ _ hinst,
            length_cache_install _ _ _ _ _ hinst⟩
          simp [handleL1WriteBack, hd, h0, hwmiss, hl2a, hfull, hinst]
      · refine ⟨(l2.write (l2.indexOf er.evicted_block_address)
            (l2.tagOf er.evicted_block_address)).2,
          { stats with
            l1_write_backs := stats.l1_write_backs + 1,
            l2_writes := stats.l2_writes + 1 },
          ?_,
          Or.inr (WFCache_write l2 _ _ hwfc hIdx),
          cache_size_write l2 _ _, length_cache_write l2 _ _⟩
        simp [handleL1WriteBack, hd, h0, hwmiss]
    · refine ⟨l2, stats, ?_, hwf, rfl, rfl⟩
      simp only [Bool.not_eq_true] at hd
      simp [handleL1WriteBack, h0, hd]

theorem not_hit_eq_miss (h : HitOrMiss) (hne : ¬ h = HitOrMiss.HIT) :
    h = HitOrMiss.MISS := by
  cases h
  · exact absurd rfl hne
  · rfl

theorem fetchAndInstall_total (l1 l2 : Cache) (stats : Statistics) (rw : RW)
    (address i1 t1 i2 t2 : Nat) (hwf1 : WFCache l1) (hwf2 : WFL2 l2)
    (hfull : l1.setIsFull i1 = false) (hi1 : i1 < l1.cache.length)
    (hi2 : l2.cache_size ≠ 0 → i2 < l2.cache.length) :
    ∃ l1b l2b stats2, fetchAndInstall l1 l2 stats rw address i1 t1 i2 t2
        = some (l1b, l2b, stats2) ∧ WFCache l1b ∧ WFL2 l2b := by
  obtain ⟨l1c, hinst1⟩ := install_succeeds l1 i1 t1 address hfull
  have hwfc1 : WFCache l1c := WFCache_install _ _ _ _ _ hinst1 hwf1 hi1
  have hlen1 : l1c.cache.length = l1.cache.length :=
    length_cache_install _ _ _ _ _ hinst1
  have hwfc1w : WFCache (l1c.write i1 t1).2 :=
    WFCache_write l1c i1 t1 hwfc1 (by rw [hlen1]; exact hi1)
  by_cases h0 : l2.cache_size = 0
  · cases rw with
    | r =>
      refine ⟨l1c, l2,
        { stats with
          total_memory_traffic := stats.total_memory_traffic + 1,
          l1_reads := stats.l1_reads + 1 },
        ?_, hwfc1, hwf2⟩
      simp [fetchAndInstall, h0, hinst1]
    | w =>
      refine ⟨(l1c.write i1 t1).2, l2,
        { stats with
          total_memory_traffic := stats.total_memory_traffic + 1,
          l1_writes := stats.l1_writes + 1 },
        ?_, hwfc1w, hwf2⟩
      simp [fetchAndInstall, h0, hinst1]
  · have hwfc2 : WFCache l2 := by
      rcases hwf2 with h | h
      · exact absurd h h0
      · exact h
    have hi2b : i2 < l2.cache.length := hi2 h0
    by_cases hhit2 : (l2.read i2 t2).1 = HitOrMiss.HIT
    · have hwfl2c : WFCache (l2.read i2 t2).2 := WFCache_read l2 i2 t2 hwfc2 hi2b
      cases rw with
      | r =>
        refine ⟨l1c, (l2.read i2 t2).2,
          { stats with
            l2_reads := stats.l2_reads + 1,
            l1_reads := stats.l1_reads + 1 },
          ?_, hwfc1, Or.inr hwfl2c⟩
        simp [fetchAndInstall, h0, hhit2, hinst1]
      | w =>
        refine ⟨(l1c.write i1 t1).2, (l2.read i2 t2).2,
          { stats with
            l2_reads := stats.l2_reads + 1,
            l1_writes := stats.l1_writes + 1 },
          ?_, hwfc1w, Or.inr hwfl2c⟩
        simp [fetchAndInstall, h0, hhit2, hinst1]
    · have hl2c : (l2.read i2 t2).2 = l2 :=
        read_miss_unchanged _ _ _ (not_hit_eq_miss _ hhit2)
      by_cases hfull2 : l2.setIsFull i2
      · have hlen20 : 0 < (l2.getSet i2).length := by
          rw [WF_getSet_length l2 hwfc2 _ hi2b]
          exact hwfc2.1
        have hnf2 := setIsFull_after_evict l2 i2 hlen20
        obtain ⟨l2d, hinst2⟩ :=
          install_succeeds ((l2.evictLruBlock i2).2) i2 t2 address hnf2
        have hwfl2d : WFCache l2d :=
          WFCache_install _ _ _ _ _ hinst2 (WFCache_evict l2 i2 hwfc2 hi2b)
            (by rw [length_cache_evict]; exact hi2b)
        by_cases hd2 : (l2.evictLruBlock i2).1.evicted_block_was_dirty
        · cases rw with
          | r =>
            refine ⟨l1c, l2d,
              { stats with
                l2_read_misses := stats.l2_read_misses + 1,
                l2_write_backs := stats.l2_write_backs + 1,
                total_memory_traffic := stats.total_memory_traffic + 1 + 1,
                l2_reads := stats.l2_reads + 1,
                l1_reads := stats.l1_reads + 1 },
              ?_, hwfc1, Or.inr hwfl2d⟩
            simp [fetchAndInstall, h0, hhit2, hl2c, hfull2, hd2, hinst2, hinst1]
          | w =>
            refine ⟨(l1c.write i1 t1).2, l2d,
              { stats with
                l2_read_misses := stats.l2_read_misses + 1,
                l2_write_backs := stats.l2_write_backs + 1,
                total_memory_traffic := stats.total_memory_traffic + 1 + 1,
                l2_reads := stats.l2_reads + 1,
                l1_writes := stats.l1_writes + 1 },
              ?_, hwfc1w, Or.inr hwfl2d⟩
            simp [fetchAndInstall, h0, hhit2, hl2c, hfull2, hd2, hinst2, hinst1]
        · have hd2c : (l2.evictLruBlock i2).1.evicted_block_was_dirty = false :=
            by simpa using hd2
          cases rw with
          | r =>
            refine ⟨l1c, l2d,
              { stats with
                l2_read_misses := stats.l2_read_misses + 1,
                total_memory_traffic := stats.total_memory_traffic + 1,
                l2_reads := stats.l2_reads + 1,
                l1_reads := stats.l1_reads + 1 },
              ?_, hwfc1, Or.inr hwfl2d⟩
            simp [fetchAndInstall, h0, hhit2, hl2c, hfull2, hd2c, hinst2, hinst1]
          | w =>
            refine ⟨(l1c.write i1 t1).2, l2d,
              { stats with
                l2_read_misses := stats.l2_read_misses + 1,
                total_memory_traffic := stats.total_memory_traffic + 1,
                l2_reads := stats.l2_reads + 1,
                l1_writes := stats.l1_writes + 1 },
              ?_, hwfc1w, Or.inr hwfl2d⟩
            simp [fetchAndInstall, h0, hhit2, hl2c, hfull2, hd2c, hinst2, hinst1]
      · obtain ⟨l2d, hinst2⟩ :=
          install_succeeds l2 i2 t2 address (by simpa using hfull2)
        have hwfl2d : WFCache l2d :=
          WFCache_install _ _ _ _ _ hinst2 hwfc2 hi2b
        cases rw with
        | r =>
          refine ⟨l1c, l2d,
            { stats with
              l2_read_misses := stats.l2_read_misses + 1,
              total_memory_traffic := stats.total_memory_traffic + 1,
              l2_reads := stats.l2_reads + 1,
              l1_reads := stats.l1_reads + 1 },
            ?_, hwfc1, Or.inr hwfl2d⟩
          simp [fetchAndInstall, h0, hhit2, hl2c, hfull2, hinst2, hinst1]
        | w =>
          refine ⟨(l1c.write i1 t1).2, l2d,
            { stats with
              l2_read_misses := stats.l2_read_misses + 1,
              total_memory_traffic := stats.total_memory_traffic + 1,
              l2_reads := stats.l2_reads + 1,
              l1_writes := stats.l1_writes + 1 },
            ?_, hwfc1w, Or.inr hwfl2d⟩
          simp [fetchAndInstall, h0, hhit2, hl2c, hfull2, hinst2, hinst1]

theorem processAccess_total (l1 l2 : Cache) (stats : Statistics) (rw : RW)
    (address : Nat) (hwf1 : WFCache l1) (hwf2 : WFL2 l2) :
    ∃ l1b l2b stats2, processAccess l1 l2 stats rw address
        = some (l1b, l2b, stats2) ∧ WFCache l1b ∧ WFL2 l2b := by
  have hi1 : l1.indexOf address < l1.cache.length :=
    indexOf_lt_of_WF l1 address hwf1
  have hi2 : l2.cache_size ≠ 0 → l2.indexOf address < l2.cache.length := by
    intro h
    rcases hwf2 with hh | hh
    · exact absurd hh h
    · exact indexOf_lt_of_WF l2 address hh
  cases rw with
  | r =>
    by_cases hhit : (l1.read (l1.indexOf address) (l1.tagOf address)).1
        = HitOrMiss.HIT
    · refine ⟨(l1.read (l1.indexOf address) (l1.tagOf address)).2, l2,
        { stats with l1_reads := stats.l1_reads + 1 }, ?_,
        WFCache_read l1 _ _ hwf1 hi1, hwf2⟩
      simp [processAccess, hhit]
    · have hwfa : WFCache (l1.read (l1.indexOf address) (l1.tagOf address)).2 :=
        WFCache_read l1 _ _ hwf1 hi1
      have hlena : (l1.read (l1.indexOf address)
          (l1.tagOf address)).2.cache.length = l1.cache.length :=
        length_cache_read l1 _ _
      by_cases hfull : (l1.read (l1.indexOf address)
          (l1.tagOf address)).2.setIsFull (l1.indexOf address)
      · obtain ⟨l2b, stats2, hh, hwfb, hsize, hlen⟩ :=
          handleL1WriteBack_total
            ((l1.read (l1.indexOf address)
              (l1.tagOf address)).2.evictLruBlock (l1.indexOf address)).1 l2
            { stats with l1_read_misses := stats.l1_read_misses + 1 }
            address hwf2
        have hwfe : WFCache ((l1.read (l1.indexOf address)
            (l1.tagOf address)).2.evictLruBlock (l1.indexOf address)).2 :=
          WFCache_evict _ _ hwfa (by rw [hlena]; exact hi1)
        have hnf := setIsFull_after_evict
          (l1.read (l1.indexOf address) (l1.tagOf address)).2
          (l1.indexOf address)
          (by rw [WF_getSet_length _ hwfa _ (by rw [hlena]; exact hi1)]
              exact hwfa.1)
        obtain ⟨l1f, l2f, statsf, heq, hwf1f, hwf2f⟩ :=
          fetchAndInstall_total
            ((l1.read (l1.indexOf address)
              (l1.tagOf address)).2.evictLruBlock (l1.indexOf address)).2
            l2b stats2 RW.r address
            (l1.indexOf address) (l1.tagOf address)
            (l2.indexOf address) (l2.tagOf address)
            hwfe hwfb hnf
            (by rw [length_cache_evict, hlena]; exact hi1)
            (by intro h
                rw [hlen]
                exact hi2 (by rwa [hsize] at h))
        refine ⟨l1f, l2f, statsf, ?_, hwf1f, hwf2f⟩
        simp [processAccess, hhit, hfull, hh, heq]
      · obtain ⟨l1f, l2f, statsf, heq, hwf1f, hwf2f⟩ :=
          fetchAndInstall_total
            (l1.read (l1.indexOf address) (l1.tagOf address)).2 l2
            { stats with l1_read_misses := stats.l1_read_misses + 1 }
            RW.r address
            (l1.indexOf address) (l1.tagOf address)
            (l2.indexOf address) (l2.tagOf address)
            hwfa hwf2 (by simpa using hfull)
            (by rw [hlena]; exact hi1) hi2
        refine ⟨l1f, l2f, statsf, ?_, hwf1f, hwf2f⟩
        simp [processAccess, hhit, hfull, heq]
  | w =>
    by_cases hhit : (l1.write (l1.indexOf address) (l1.tagOf address)).1
        = HitOrMiss.HIT
    · refine ⟨(l1.write (l1.indexOf address) (l1.tagOf address)).2, l2,
        { stats with l1_writes := stats.l1_writes + 1 }, ?_,
        WFCache_write l1 _ _ hwf1 hi1, hwf2⟩
      simp [processAccess, hhit]
    · have hwfa : WFCache (l1.write (l1.indexOf address) (l1.tagOf address)).2 :=
        WFCache_write l1 _ _ hwf1 hi1
      have hlena : (l1.write (l1.indexOf address)
          (l1.tagOf address)).2.cache.length = l1.cache.length :=
        length_cache_write l1 _ _
      by_cases hfull : (l1.write (l1.indexOf address)
          (l1.tagOf address)).2.setIsFull (l1.indexOf address)
      · obtain ⟨l2b, stats2, hh, hwfb, hsize, hlen⟩ :=
          handleL1WriteBack_total
            ((l1.write (l1.indexOf address)
              (l1.tagOf address)).2.evictLruBlock (l1.indexOf address)).1 l2
            { stats with l1_write_misses := stats.l1_write_misses + 1 }
            address hwf2
        have hwfe : WFCache ((l1.write (l1.indexOf address)
            (l1.tagOf address)).2.evictLruBlock (l1.indexOf address)).2 :=
          WFCache_evict _ _ hwfa (by rw [hlena]; exact hi1)
        have hnf := setIsFull_after_evict
          (l1.write (l1.indexOf address) (l1.tagOf address)).2
          (l1.indexOf address)
          (by rw [WF_getSet_length _ hwfa _ (by rw [hlena]; exact hi1)]
              exact hwfa.1)
        obtain ⟨l1f, l2f, statsf, heq, hwf1f, hwf2f⟩ :=
          fetchAndInstall_total
            ((l1.write (l1.indexOf address)
              (l1.tagOf address)).2.evictLruBlock (l1.indexOf address)).2
            l2b stats2 RW.w address
            (l1.indexOf address) (l1.tagOf address)
            (l2.indexOf address) (l2.tagOf address)
            hwfe hwfb hnf
            (by rw [length_cache_evict, hlena]; exact hi1)
            (by intro h
                rw [hlen]
                exact hi2 (by rwa [hsize] at h))
        refine ⟨l1f, l2f, statsf, ?_, hwf1f, hwf2f⟩
        simp [processAccess, hhit, hfull, hh, heq]
      · obtain ⟨l1f, l2f, statsf, heq, hwf1f, hwf2f⟩ :=
          fetchAndInstall_total
            (l1.write (l1.indexOf address) (l1.tagOf address)).2 l2
            { stats with l1_write_misses := stats.l1_write_misses + 1 }
            RW.w address
            (l1.indexOf address) (l1.tagOf address)
            (l2.indexOf address) (l2.tagOf address)
            hwfa hwf2 (by simpa using hfull)
            (by rw [hlena]; exact hi1) hi2
        refine ⟨l1f, l2f, statsf, ?_, hwf1f, hwf2f⟩
        simp [processAccess, hhit, hfull, heq]

/-- C8: over any trace, starting from a well-formed L1 and a well-formed
or absent L2 (as `Cache::new` produces for the power-of-two configurations
the simulator accepts), the hierarchy controller never reaches the panic
branch inside `Cache::install` ("Tried to install where there was no free
space."): the controller always evicts from a full set before installing,
so the run — modelled with `none` for that panic — always completes. -/
theorem claim8_install_never_panics (trace : List (RW × Nat)) :
    ∀ l1 l2 stats, WFCache l1 → WFL2 l2 →
      (processTrace l1 l2 stats trace).isSome = true := by
  induction trace with
  | nil =>
    intro l1 l2 stats _ _
    rfl
  | cons a rest ih =>
    intro l1 l2 stats hwf1 hwf2
    obtain ⟨l1b, l2b, stats2, heq, hwfb1, hwfb2⟩ :=
      processAccess_total l1 l2 stats a.1 a.2 hwf1 hwf2
    cases a with
    | mk rw addr =>
      simp only [processTrace, heq]
      exact ih l1b l2b stats2 hwfb1 hwfb2

/-- Witness for C8 at a concrete input: the configuration of C1's example
with the two-access trace `r 0; w 0x20` runs to completion. -/
theorem claim8_install_never_panics_witness :
    (processTrace (Cache.new 1024 2 32) (Cache.new 0 0 0) Statistics.new
      [(RW.r, 0), (RW.w, 32)]).isSome = true := by
  exact claim8_install_never_panics [(RW.r, 0), (RW.w, 32)]
    (Cache.new 1024 2 32) (Cache.new 0 0 0) Statistics.new
    (by unfold WFCache; decide) (by left; decide)
